import Mathlib

/-!
Verification of the stoichiometric equation balancer of the `chemicals`
repository: the Matrix Builder (`stoichiometric_matrix`), the Null-Space
Solver and Rationalizer (`balance_stoichiometry`), and the standard
formation reaction helper (`standard_formation_reaction`).

The balancer module itself is not among the provided source files (only its
test suite is), so the three functions are modelled from the specification:
species are finite element-to-count mappings (association lists), the
conservation matrix carries `+count` for known species and `-count` for
unknown species, the solver computes the null space of the matrix by an
exact rank-revealing elimination over `ℚ`, sign-normalizes the
one-dimensional null-space generator so that the coefficient of the first
known species comes out positive (section 4.2), and the rationalizer
scales the result by a positive factor to the smallest integer vector.
All arithmetic is exact rational arithmetic, so the floating-point
tolerance `1e-13` of the tests is verified in the strongest form
(the residual is exactly zero).
-/

/-- A chemical species: a mapping from element symbol (or the formal-charge
pseudo-element) to atom count, represented as an association list in
insertion order. -/
abbrev Species := List (String × ℚ)

/-- Modelled from the spec: the error taxonomy of section 7 for the missing
balancer module (`InvalidInputError`, `InfeasibleBalanceError`,
`UnderdeterminedSystemError`). -/
inductive BalanceError
  | invalidInput
  | infeasible
  | underdetermined
  deriving DecidableEq, Repr

/-- Entry `j` of a row vector, `0` past the end. -/
def getEntry (r : List ℚ) (j : ℕ) : ℚ := r.getD j 0

/-- Pointwise sum of two row vectors, padding the shorter one with zeros. -/
def addRow : List ℚ → List ℚ → List ℚ
  | [], ys => ys
  | x :: xs, [] => x :: xs
  | x :: xs, y :: ys => (x + y) :: addRow xs ys

/-- Scalar multiple of a row vector. -/
def scaleRow (c : ℚ) (r : List ℚ) : List ℚ := r.map (fun q => c * q)

/-- Dot product of two vectors over the index range `[0, n)`. -/
def dotTo (n : ℕ) (r x : List ℚ) : ℚ :=
  ((List.range n).map (fun j => getEntry r j * getEntry x j)).sum

/-- Dot product of two vectors of equal length (matrix row times
coefficient vector). -/
def zipDot (r x : List ℚ) : ℚ := (List.zipWith (fun a b => a * b) r x).sum

/-- Extract the first row with a nonzero entry in column `c`, together with
the remaining rows in order. -/
def splitPivot (c : ℕ) : List (List ℚ) → Option (List ℚ × List (List ℚ))
  | [] => none
  | r :: rest =>
    if getEntry r c = 0 then
      match splitPivot c rest with
      | none => none
      | some (p, others) => some (p, r :: others)
    else some (r, rest)

/-- Eliminate column `c` from row `r` using the normalized pivot row `p`
(whose entry in column `c` is `1`). -/
def elimRow (p : List ℚ) (c : ℕ) (r : List ℚ) : List ℚ :=
  addRow r (scaleRow (-(getEntry r c)) p)

/-- Forward phase of the exact rank-revealing elimination: sweep the columns
from `c` on (with `fuel` columns left), recording for each column that
contains a pivot the normalized pivot row after elimination of all earlier
columns.  The pivot entry of each recorded row is `1` and all entries in
earlier columns are `0`. -/
def gaussPivots : ℕ → List (List ℚ) → ℕ → List (ℕ × List ℚ)
  | 0, _, _ => []
  | fuel+1, rows, c =>
    match splitPivot c rows with
    | none => gaussPivots fuel rows (c+1)
    | some (p, rest) =>
      (c, scaleRow (getEntry p c)⁻¹ p) ::
        gaussPivots fuel (rest.map (elimRow (scaleRow (getEntry p c)⁻¹ p) c)) (c+1)

/-- Subtract from `r` the multiples of the given (already fully reduced)
pivot rows that clear the entries of `r` in their pivot columns. -/
def reduceRow (r : List ℚ) (piv : List (ℕ × List ℚ)) : List ℚ :=
  piv.foldl (fun row cp => addRow row (scaleRow (-(getEntry row cp.1)) cp.2)) r

/-- Backward phase: clear every pivot column from the rows above it, turning
the echelon form into the reduced row echelon form. -/
def backSub : List (ℕ × List ℚ) → List (ℕ × List ℚ)
  | [] => []
  | (c, r) :: rest =>
    (c, reduceRow r (backSub rest)) :: backSub rest

/-- Reduced row echelon form of the matrix, as a list of
(pivot column, pivot row) pairs with strictly increasing pivot columns. -/
def rref (n : ℕ) (rows : List (List ℚ)) : List (ℕ × List ℚ) :=
  backSub (gaussPivots n rows 0)

/-- The pivot columns of an echelon form. -/
def pivotCols (piv : List (ℕ × List ℚ)) : List ℕ := piv.map Prod.fst

/-- The free (non-pivot) columns among `[0, n)`. -/
def freeCols (n : ℕ) (piv : List (ℕ × List ℚ)) : List ℕ :=
  (List.range n).filter (fun j => ¬ (j ∈ pivotCols piv))

/-- The null-space basis vector attached to the free column `f`: entry `1`
in column `f`, the negated entry of the corresponding reduced pivot row in
every pivot column, `0` in the other free columns. -/
def basisVector (n : ℕ) (piv : List (ℕ × List ℚ)) (f : ℕ) : List ℚ :=
  (List.range n).map (fun j =>
    if j = f then 1
    else
      match piv.find? (fun cp => cp.1 = j) with
      | some cp => -(getEntry cp.2 f)
      | none => 0)

/-- Modelled from the spec: the null-space computation of the missing
solver (section 4.2), realized as an exact rank-revealing factorization;
one basis vector per free column of the reduced row echelon form. -/
def nullspaceBasis (n : ℕ) (rows : List (List ℚ)) : List (List ℚ) :=
  (freeCols n (rref n rows)).map (basisVector n (rref n rows))

/-- Least common multiple of the denominators of a rational vector. -/
def denLcm (v : List ℚ) : ℕ := v.foldr (fun q a => Nat.lcm q.den a) 1

/-- The vector scaled by the common denominator, as integers. -/
def intList (v : List ℚ) : List ℤ :=
  v.map (fun q => q.num * ((denLcm v / q.den : ℕ) : ℤ))

/-- Greatest common divisor of the absolute values of an integer vector. -/
def intGcd (zs : List ℤ) : ℕ := zs.foldr (fun z a => Nat.gcd z.natAbs a) 0

/-- Modelled from the spec: the position of the first known species (the
index of the first `true` flag, the list length when there is none);
section 4.2 normalizes the sign of the solver output at this position. -/
def firstKnown : List Bool → ℕ
  | [] => 0
  | b :: rest => if b then 0 else firstKnown rest + 1

/-- Modelled from the spec: the sign normalization of the solver output
(section 4.2): flip the whole vector when the coefficient at position `k`
(the first known species) is negative, so that the first known-species
coefficient comes out positive. -/
def signNormalize (k : ℕ) (v : List ℚ) : List ℚ :=
  if getEntry v k < 0 then scaleRow (-1) v else v

/-- The positive scalar by which the rationalizer multiplies the
(sign-normalized) null-space vector: common denominator over common
divisor. -/
def intScale (v : List ℚ) : ℚ :=
  if intGcd (intList v) = 0 then 1
  else ((denLcm v : ℕ) : ℚ) / ((intGcd (intList v) : ℕ) : ℚ)

/-- Modelled from the spec: the Rationalizer (section 4.3) of the missing
balancer module; scales a rational null-space vector by a positive factor
to the smallest integer vector on its ray. -/
def rationalize (v : List ℚ) : List ℚ := scaleRow (intScale v) v

/-- Number of columns of a dense matrix (length of its first row). -/
def numCols (m : List (List ℚ)) : ℕ := (m.head?.map List.length).getD 0

/-- Modelled from the spec: `balance_stoichiometry` of the missing
`chemicals.reaction` module (sections 4.2 and 4.3): compute the null space
of the conservation matrix; raise `InfeasibleBalanceError` when it is
trivial and `UnderdeterminedSystemError` when its dimension exceeds one,
and otherwise sign-normalize the generator so the first known-species
coefficient is positive (the known flags of the balance request are passed
along for this, per the control flow of section 2) and return its
rationalization. -/
def balance_stoichiometry (matrix : List (List ℚ)) (statuses : List Bool) :
    Except BalanceError (List ℚ) :=
  match nullspaceBasis (numCols matrix) matrix with
  | [] => .error .infeasible
  | [v] => .ok (rationalize (signNormalize (firstKnown statuses) v))
  | _ => .error .underdetermined

/-- Atom count of element `k` in a species, `0` when absent. -/
def atomCount (s : Species) (k : String) : ℚ :=
  match s.find? (fun kv => kv.1 = k) with
  | some kv => kv.2
  | none => 0

/-- All distinct element/charge keys occurring across the species, in
first-seen order. -/
def collectKeys (atomss : List Species) : List String :=
  atomss.foldl
    (fun acc s => s.foldl (fun acc2 kv => if kv.1 ∈ acc2 then acc2 else acc2 ++ [kv.1]) acc) []

/-- The signed matrix cell: `+count` for a known species, `-count` for an
unknown one. -/
def signedCount (s : Species) (known : Bool) (k : String) : ℚ :=
  if known then atomCount s k else -(atomCount s k)

/-- Modelled from the spec: `stoichiometric_matrix` of the missing
`chemicals.reaction` module (section 4.1): validate the input (equal
lengths, at least two species, a genuine known/unknown split) and build the
conservation matrix with one row per distinct key in first-seen order and
one signed column per species. -/
def stoichiometric_matrix (atomss : List Species) (statuses : List Bool) :
    Except BalanceError (List (List ℚ)) :=
  if atomss.length = statuses.length ∧ 2 ≤ atomss.length ∧
      (¬ statuses.all (fun b => b)) ∧ (¬ statuses.all (fun b => !b)) then
    .ok ((collectKeys atomss).map (fun k =>
      (atomss.zip statuses).map (fun p => signedCount p.1 p.2 k)))
  else .error .invalidInput

/-- The elements whose standard elemental form is diatomic. -/
def diatomics : List String := ["H", "N", "O", "F", "Cl", "Br"]

/-- The standard elemental form of an element: `{X: 2}` for the diatomic
elements, `{X: 1}` otherwise. -/
def standardForm (e : String) : Species :=
  if e ∈ diatomics then [(e, 2)] else [(e, 1)]

/-- Modelled from the spec: `standard_formation_reaction` of the missing
`chemicals.reaction` module.  It is absent from the specification text and
is modelled as the composition fixed by the repository tests: build the
conservation matrix of the standard elemental forms (known side) against
the product (unknown side) and balance it, returning the product
coefficient, the reactant coefficients and the reactant compositions. -/
def standard_formation_reaction (atoms : Species) :
    Except BalanceError (ℚ × List ℚ × List Species) :=
  match stoichiometric_matrix ((collectKeys [atoms]).map standardForm ++ [atoms])
      (((collectKeys [atoms]).map standardForm).map (fun _ => true) ++ [false]) with
  | .error e => .error e
  | .ok M =>
    match balance_stoichiometry M
        (((collectKeys [atoms]).map standardForm).map (fun _ => true) ++ [false]) with
    | .error e => .error e
    | .ok coeffs =>
      .ok (coeffs.getLast?.getD 0, coeffs.dropLast, (collectKeys [atoms]).map standardForm)

/-- A rational vector whose components are all integers. -/
def isIntVec (v : List ℚ) : Prop := ∀ q ∈ v, q.den = 1

/-- Greatest common divisor of the numerators of an (integer) rational
vector. -/
def vecGcd (v : List ℚ) : ℕ := intGcd (v.map Rat.num)

/-- The matrix has no non-trivial null space: every coefficient vector that
zeroes all rows is the zero vector. -/
def onlyTrivialNull (M : List (List ℚ)) (n : ℕ) : Prop :=
  ∀ x : List ℚ, x.length = n → (∀ r ∈ M, zipDot r x = 0) → ∀ q ∈ x, q = 0

/-- The matrix admits two linearly independent null vectors (its null space
has dimension greater than one). -/
def hasTwoIndependentNull (M : List (List ℚ)) (n : ℕ) : Prop :=
  ∃ x y : List ℚ, x.length = n ∧ y.length = n ∧
    (∀ r ∈ M, zipDot r x = 0) ∧ (∀ r ∈ M, zipDot r y = 0) ∧
    ∀ a b : ℚ, addRow (scaleRow a x) (scaleRow b y) = List.replicate n 0 → a = 0 ∧ b = 0

/-- Apply the index permutation `p` to a list: position `j` of the result
holds the element at position `p j` of the input. -/
def applyPerm (d : α) (p : List ℕ) (l : List α) : List α := p.map (fun i => l.getD i d)

/-- The structural invariants of the forward elimination output: strictly
increasing pivot columns, unit pivot entries, zeros left of each pivot,
rows of width `n`. -/
def EchelonProps (n : ℕ) (piv : List (ℕ × List ℚ)) : Prop :=
  List.Pairwise (fun a b => a.1 < b.1) piv ∧
  (∀ cp ∈ piv, getEntry cp.2 cp.1 = 1) ∧
  (∀ cp ∈ piv, ∀ j, j < cp.1 → getEntry cp.2 j = 0) ∧
  (∀ cp ∈ piv, cp.2.length = n)

/-- The reduced row echelon invariants: echelon structure plus zeros in
every other pivot column. -/
def RrefProps (n : ℕ) (piv : List (ℕ × List ℚ)) : Prop :=
  EchelonProps n piv ∧
  ∀ cp ∈ piv, ∀ cq ∈ piv, cq.1 ≠ cp.1 → getEntry cp.2 cq.1 = 0

theorem getEntry_nil (j : ℕ) : getEntry [] j = 0 := by
  simp [getEntry]

theorem getEntry_cons_zero (a : ℚ) (as : List ℚ) : getEntry (a :: as) 0 = a := rfl

theorem getEntry_cons_succ (a : ℚ) (as : List ℚ) (j : ℕ) :
    getEntry (a :: as) (j+1) = getEntry as j := rfl

theorem getEntry_of_length_le (r : List ℚ) (j : ℕ) (h : r.length ≤ j) : getEntry r j = 0 :=
  List.getD_eq_default _ _ h

theorem getEntry_addRow : ∀ (a b : List ℚ) (j : ℕ),
    getEntry (addRow a b) j = getEntry a j + getEntry b j
  | [], ys, j => by simp [addRow, getEntry]
  | x :: xs, [], j => by simp [addRow, getEntry]
  | x :: xs, y :: ys, 0 => by simp [addRow, getEntry]
  | x :: xs, y :: ys, j+1 => by
    simpa [addRow, getEntry_cons_succ] using getEntry_addRow xs ys j

theorem getEntry_scaleRow (c : ℚ) : ∀ (r : List ℚ) (j : ℕ),
    getEntry (scaleRow c r) j = c * getEntry r j
  | [], j => by simp [scaleRow, getEntry]
  | x :: xs, 0 => by simp [scaleRow, getEntry]
  | x :: xs, j+1 => by
    simpa [scaleRow, getEntry_cons_succ] using getEntry_scaleRow c xs j

theorem getEntry_mem (l : List ℚ) (j : ℕ) (hj : j < l.length) : getEntry l j ∈ l := by
  unfold getEntry
  rw [List.getD_eq_getElem _ _ hj]
  exact List.getElem_mem _

theorem addRow_length : ∀ (a b : List ℚ), (addRow a b).length = max a.length b.length
  | [], ys => by simp [addRow]
  | x :: xs, [] => by simp [addRow]
  | x :: xs, y :: ys => by
    simpa [addRow, Nat.succ_max_succ] using addRow_length xs ys

theorem scaleRow_length (c : ℚ) (r : List ℚ) : (scaleRow c r).length = r.length := by
  simp [scaleRow]

theorem scaleRow_scaleRow (c d : ℚ) (r : List ℚ) :
    scaleRow c (scaleRow d r) = scaleRow (c * d) r := by
  simp [scaleRow, Function.comp, mul_assoc]

theorem scaleRow_one (r : List ℚ) : scaleRow 1 r = r := by
  simp [scaleRow]

theorem sum_map_add_aux (l : List ℕ) (f g : ℕ → ℚ) :
    (l.map (fun j => f j + g j)).sum = (l.map f).sum + (l.map g).sum := by
  induction l with
  | nil => simp
  | cons a t ih => simp [ih]; ring

theorem sum_map_mul_aux (l : List ℕ) (c : ℚ) (f : ℕ → ℚ) :
    (l.map (fun j => c * f j)).sum = c * (l.map f).sum := by
  induction l with
  | nil => simp
  | cons a t ih => simp [ih]; ring

theorem sum_map_zero_aux (l : List ℕ) (f : ℕ → ℚ) (h : ∀ j ∈ l, f j = 0) :
    (l.map f).sum = 0 := by
  induction l with
  | nil => simp
  | cons a t ih =>
    simp only [List.map_cons, List.sum_cons, h a (by simp)]
    rw [ih (fun j hj => h j (by simp [hj]))]
    simp

theorem dotTo_addRow (n : ℕ) (a b x : List ℚ) :
    dotTo n (addRow a b) x = dotTo n a x + dotTo n b x := by
  unfold dotTo
  rw [← sum_map_add_aux]
  congr 1
  apply List.map_congr_left
  intro j _
  rw [getEntry_addRow]
  ring

theorem dotTo_scaleRow (n : ℕ) (c : ℚ) (a x : List ℚ) :
    dotTo n (scaleRow c a) x = c * dotTo n a x := by
  unfold dotTo
  rw [← sum_map_mul_aux]
  congr 1
  apply List.map_congr_left
  intro j _
  rw [getEntry_scaleRow]
  ring

theorem dotTo_scaleRow_right (n : ℕ) (c : ℚ) (r v : List ℚ) :
    dotTo n r (scaleRow c v) = c * dotTo n r v := by
  unfold dotTo
  rw [← sum_map_mul_aux]
  congr 1
  apply List.map_congr_left
  intro j _
  rw [getEntry_scaleRow]
  ring

theorem dotTo_eq_zero_of_left_zero (n : ℕ) (r x : List ℚ)
    (h : ∀ j, getEntry r j = 0) : dotTo n r x = 0 := by
  apply sum_map_zero_aux
  intro j _
  rw [h j, zero_mul]

theorem dotTo_cons_succ (n : ℕ) (a b : ℚ) (as bs : List ℚ) :
    dotTo (n+1) (a :: as) (b :: bs) = a * b + dotTo n as bs := by
  unfold dotTo
  rw [List.range_succ_eq_map, List.map_cons, List.map_map, List.sum_cons]
  congr 1

theorem zipDot_eq_dotTo : ∀ (n : ℕ) (r x : List ℚ), x.length ≤ n → zipDot r x = dotTo n r x
  | 0, r, x, h => by
    have : x = [] := List.length_eq_zero.mp (Nat.le_zero.mp h)
    subst this
    simp [zipDot, dotTo, sum_map_zero_aux]
  | n+1, [], x, h => by
    simp only [zipDot, List.zipWith_nil_left, List.sum_nil]
    rw [dotTo_eq_zero_of_left_zero]
    intro j
    exact getEntry_nil j
  | n+1, a :: as, [], h => by
    simp only [zipDot, List.zipWith_nil_right, List.sum_nil]
    unfold dotTo
    rw [eq_comm]
    apply sum_map_zero_aux
    intro j _
    rw [getEntry_nil, mul_zero]
  | n+1, a :: as, b :: bs, h => by
    have hb : bs.length ≤ n := by simpa using h
    have := zipDot_eq_dotTo n as bs hb
    simp only [zipDot, List.zipWith_cons_cons, List.sum_cons] at *
    rw [dotTo_cons_succ, ← this]

theorem listSum_range_eq (n : ℕ) (f : ℕ → ℚ) :
    ((List.range n).map f).sum = ∑ j ∈ Finset.range n, f j := by
  induction n with
  | zero => simp
  | succ m ih => rw [List.range_succ, Finset.sum_range_succ, List.map_append, List.sum_append, ih]; simp

theorem dotTo_eq_finset (n : ℕ) (r x : List ℚ) :
    dotTo n r x = ∑ j ∈ Finset.range n, getEntry r j * getEntry x j :=
  listSum_range_eq n _

theorem splitPivot_perm : ∀ (c : ℕ) (rows : List (List ℚ)) (p : List ℚ) (rest' : List (List ℚ)),
    splitPivot c rows = some (p, rest') → rows.Perm (p :: rest')
  | _, [], _, _, h => by simp [splitPivot] at h
  | c, r :: rs, p, rest', h => by
    unfold splitPivot at h
    by_cases h0 : getEntry r c = 0
    · rw [if_pos h0] at h
      cases hsp : splitPivot c rs with
      | none => rw [hsp] at h; exact absurd h (by simp)
      | some pr =>
        obtain ⟨p', others⟩ := pr
        rw [hsp] at h
        simp only [Option.some.injEq, Prod.mk.injEq] at h
        obtain ⟨hp, hrest⟩ := h
        rw [← hp, ← hrest]
        exact ((splitPivot_perm c rs p' others hsp).cons r).trans (List.Perm.swap p' r others)
    · rw [if_neg h0] at h
      simp only [Option.some.injEq, Prod.mk.injEq] at h
      obtain ⟨hp, hrest⟩ := h
      subst hp; subst hrest
      exact List.Perm.refl _

theorem splitPivot_ne_zero : ∀ (c : ℕ) (rows : List (List ℚ)) (p : List ℚ) (rest' : List (List ℚ)),
    splitPivot c rows = some (p, rest') → getEntry p c ≠ 0
  | _, [], _, _, h => by simp [splitPivot] at h
  | c, r :: rs, p, rest', h => by
    unfold splitPivot at h
    by_cases h0 : getEntry r c = 0
    · rw [if_pos h0] at h
      cases hsp : splitPivot c rs with
      | none => rw [hsp] at h; exact absurd h (by simp)
      | some pr =>
        obtain ⟨p', others⟩ := pr
        rw [hsp] at h
        simp only [Option.some.injEq, Prod.mk.injEq] at h
        obtain ⟨hp, _⟩ := h
        rw [← hp]
        exact splitPivot_ne_zero c rs p' others hsp
    · rw [if_neg h0] at h
      simp only [Option.some.injEq, Prod.mk.injEq] at h
      obtain ⟨hp, _⟩ := h
      rw [← hp]
      exact h0

theorem splitPivot_none : ∀ (c : ℕ) (rows : List (List ℚ)),
    splitPivot c rows = none → ∀ r ∈ rows, getEntry r c = 0
  | _, [], _, r, hr => by simp at hr
  | c, r0 :: rs, h, r, hr => by
    unfold splitPivot at h
    by_cases h0 : getEntry r0 c = 0
    · rw [if_pos h0] at h
      cases hsp : splitPivot c rs with
      | none =>
        rcases List.mem_cons.mp hr with h1 | h1
        · subst h1; exact h0
        · exact splitPivot_none c rs hsp r h1
      | some pr => rw [hsp] at h; exact absurd h (by simp)
    · rw [if_neg h0] at h
      exact absurd h (by simp)

theorem elimRow_dot (n : ℕ) (x p r : List ℚ) (c : ℕ) :
    dotTo n (elimRow p c r) x = dotTo n r x + (-(getEntry r c)) * dotTo n p x := by
  unfold elimRow
  rw [dotTo_addRow, dotTo_scaleRow]

theorem scaleRow_cancel (m : ℚ) (hm : m ≠ 0) (p : List ℚ) :
    scaleRow m (scaleRow m⁻¹ p) = p := by
  rw [scaleRow_scaleRow, mul_inv_cancel₀ hm, scaleRow_one]

theorem gaussPivots_sound (n : ℕ) (x : List ℚ) : ∀ (fuel : ℕ) (rows : List (List ℚ)) (c : ℕ),
    (∀ cp ∈ gaussPivots fuel rows c, dotTo n cp.2 x = 0) →
    (∀ r ∈ rows, ∀ j, j < c ∨ c + fuel ≤ j → getEntry r j = 0) →
    ∀ r ∈ rows, dotTo n r x = 0
  | 0, rows, c, _, hsupp, r, hr => by
    apply dotTo_eq_zero_of_left_zero
    intro j
    apply hsupp r hr j
    omega
  | fuel+1, rows, c, hpiv, hsupp, r, hr => by
    cases hsp : splitPivot c rows with
    | none =>
      have hpiv' : ∀ cp ∈ gaussPivots fuel rows (c+1), dotTo n cp.2 x = 0 := by
        intro cp hcp
        apply hpiv
        simp only [gaussPivots, hsp]
        exact hcp
      refine gaussPivots_sound n x fuel rows (c+1) hpiv' ?_ r hr
      intro r' hr' j hj
      rcases hj with hj | hj
      · by_cases hj' : j < c
        · exact hsupp r' hr' j (Or.inl hj')
        · have hjc : j = c := by omega
          rw [hjc]
          exact splitPivot_none c rows hsp r' hr'
      · exact hsupp r' hr' j (Or.inr (by omega))
    | some pr =>
      obtain ⟨p, rest'⟩ := pr
      have hperm := splitPivot_perm c rows p rest' hsp
      have hm : getEntry p c ≠ 0 := splitPivot_ne_zero c rows p rest' hsp
      have hp_mem : p ∈ rows := hperm.mem_iff.mpr (by simp)
      have hpiv_eq : gaussPivots (fuel+1) rows c =
          (c, scaleRow (getEntry p c)⁻¹ p) ::
            gaussPivots fuel (rest'.map (elimRow (scaleRow (getEntry p c)⁻¹ p) c)) (c+1) := by
        simp only [gaussPivots, hsp]
      have hp'dot : dotTo n (scaleRow (getEntry p c)⁻¹ p) x = 0 := by
        refine hpiv (c, scaleRow (getEntry p c)⁻¹ p) ?_
        rw [hpiv_eq]
        simp
      have hpdot : dotTo n p x = 0 := by
        have := dotTo_scaleRow n (getEntry p c) (scaleRow (getEntry p c)⁻¹ p) x
        rw [scaleRow_cancel _ hm] at this
        rw [this, hp'dot, mul_zero]
      have hp'supp : ∀ j, j < c ∨ c + (fuel+1) ≤ j → getEntry (scaleRow (getEntry p c)⁻¹ p) j = 0 := by
        intro j hj
        rw [getEntry_scaleRow, hsupp p hp_mem j hj, mul_zero]
      have hrest_supp : ∀ r' ∈ rest'.map (elimRow (scaleRow (getEntry p c)⁻¹ p) c),
          ∀ j, j < c+1 ∨ (c+1) + fuel ≤ j → getEntry r' j = 0 := by
        intro r' hr' j hj
        obtain ⟨r0, hr0, rfl⟩ := List.mem_map.mp hr'
        have hr0_mem : r0 ∈ rows := hperm.mem_iff.mpr (by simp [hr0])
        unfold elimRow
        rw [getEntry_addRow, getEntry_scaleRow]
        rcases hj with hj | hj
        · rcases Nat.lt_succ_iff_lt_or_eq.mp hj with hj' | hj'
          · rw [hsupp r0 hr0_mem j (Or.inl hj'), hp'supp j (Or.inl hj'), mul_zero, add_zero]
          · subst hj'
            rw [getEntry_scaleRow, inv_mul_cancel₀ hm]
            ring
        · rw [hsupp r0 hr0_mem j (Or.inr (by omega)), hp'supp j (Or.inr (by omega)), mul_zero,
            add_zero]
      have hrest_piv : ∀ cp ∈ gaussPivots fuel (rest'.map (elimRow (scaleRow (getEntry p c)⁻¹ p) c)) (c+1),
          dotTo n cp.2 x = 0 := by
        intro cp hcp
        apply hpiv
        rw [hpiv_eq]
        simp [hcp]
      have hrest_dot := gaussPivots_sound n x fuel _ (c+1) hrest_piv hrest_supp
      rcases List.mem_cons.mp (hperm.mem_iff.mp hr) with h1 | h1
      · rw [h1]; exact hpdot
      · have hr' : elimRow (scaleRow (getEntry p c)⁻¹ p) c r ∈
            rest'.map (elimRow (scaleRow (getEntry p c)⁻¹ p) c) := List.mem_map_of_mem _ h1
        have h2 := hrest_dot _ hr'
        rw [elimRow_dot, hp'dot, mul_zero, add_zero] at h2
        exact h2

theorem gaussPivots_complete (n : ℕ) (x : List ℚ) : ∀ (fuel : ℕ) (rows : List (List ℚ)) (c : ℕ),
    (∀ r ∈ rows, dotTo n r x = 0) →
    ∀ cp ∈ gaussPivots fuel rows c, dotTo n cp.2 x = 0
  | 0, rows, c, _, cp, hcp => by simp [gaussPivots] at hcp
  | fuel+1, rows, c, hrows, cp, hcp => by
    cases hsp : splitPivot c rows with
    | none =>
      rw [show gaussPivots (fuel+1) rows c = gaussPivots fuel rows (c+1) by
        simp only [gaussPivots, hsp]] at hcp
      exact gaussPivots_complete n x fuel rows (c+1) hrows cp hcp
    | some pr =>
      obtain ⟨p, rest'⟩ := pr
      have hperm := splitPivot_perm c rows p rest' hsp
      have hpdot : dotTo n p x = 0 := hrows p (hperm.mem_iff.mpr (by simp))
      have hp'dot : dotTo n (scaleRow (getEntry p c)⁻¹ p) x = 0 := by
        rw [dotTo_scaleRow, hpdot, mul_zero]
      rw [show gaussPivots (fuel+1) rows c =
          (c, scaleRow (getEntry p c)⁻¹ p) ::
            gaussPivots fuel (rest'.map (elimRow (scaleRow (getEntry p c)⁻¹ p) c)) (c+1) by
        simp only [gaussPivots, hsp]] at hcp
      rcases List.mem_cons.mp hcp with h1 | h1
      · subst h1; exact hp'dot
      · refine gaussPivots_complete n x fuel _ (c+1) ?_ cp h1
        intro r' hr'
        obtain ⟨r0, hr0, rfl⟩ := List.mem_map.mp hr'
        rw [elimRow_dot, hp'dot, mul_zero, add_zero]
        exact hrows r0 (hperm.mem_iff.mpr (by simp [hr0]))

theorem reduceRow_dot (n : ℕ) (x : List ℚ) : ∀ (l : List (ℕ × List ℚ)) (r : List ℚ),
    (∀ cp ∈ l, dotTo n cp.2 x = 0) → dotTo n (reduceRow r l) x = dotTo n r x
  | [], r, _ => by simp [reduceRow]
  | cp0 :: t, r, hl => by
    have h1 : reduceRow r (cp0 :: t) =
        reduceRow (addRow r (scaleRow (-(getEntry r cp0.1)) cp0.2)) t := by
      simp [reduceRow]
    rw [h1, reduceRow_dot n x t _ (fun cp hcp => hl cp (by simp [hcp])),
      dotTo_addRow, dotTo_scaleRow, hl cp0 (by simp), mul_zero, add_zero]

theorem backSub_sound (n : ℕ) (x : List ℚ) : ∀ (piv : List (ℕ × List ℚ)),
    (∀ cp ∈ backSub piv, dotTo n cp.2 x = 0) → ∀ cp ∈ piv, dotTo n cp.2 x = 0
  | [], _, cp, hcp => by simp at hcp
  | (c, r) :: rest, hb, cp, hcp => by
    have hb_eq : backSub ((c, r) :: rest) = (c, reduceRow r (backSub rest)) :: backSub rest := rfl
    have hrest : ∀ cp ∈ backSub rest, dotTo n cp.2 x = 0 := by
      intro cp' hcp'
      apply hb
      rw [hb_eq]
      simp [hcp']
    rcases List.mem_cons.mp hcp with h1 | h1
    · subst h1
      have := hb (c, reduceRow r (backSub rest)) (by rw [hb_eq]; simp)
      simpa [reduceRow_dot n x (backSub rest) r hrest] using this
    · exact backSub_sound n x rest hrest cp h1

theorem backSub_complete (n : ℕ) (x : List ℚ) : ∀ (piv : List (ℕ × List ℚ)),
    (∀ cp ∈ piv, dotTo n cp.2 x = 0) → ∀ cp ∈ backSub piv, dotTo n cp.2 x = 0
  | [], _, cp, hcp => by simp [backSub] at hcp
  | (c, r) :: rest, hp, cp, hcp => by
    have hrest : ∀ cp ∈ backSub rest, dotTo n cp.2 x = 0 :=
      backSub_complete n x rest (fun cp' hcp' => hp cp' (by simp [hcp']))
    have hb_eq : backSub ((c, r) :: rest) = (c, reduceRow r (backSub rest)) :: backSub rest := rfl
    rw [hb_eq] at hcp
    rcases List.mem_cons.mp hcp with h1 | h1
    · subst h1
      simp only
      rw [reduceRow_dot n x (backSub rest) r hrest]
      exact hp (c, r) (by simp)
    · exact hrest cp h1


theorem gaussPivots_col_ge : ∀ (fuel : ℕ) (rows : List (List ℚ)) (c : ℕ),
    ∀ cp ∈ gaussPivots fuel rows c, c ≤ cp.1
  | 0, rows, c, cp, hcp => by simp [gaussPivots] at hcp
  | fuel+1, rows, c, cp, hcp => by
    cases hsp : splitPivot c rows with
    | none =>
      rw [show gaussPivots (fuel+1) rows c = gaussPivots fuel rows (c+1) by
        simp only [gaussPivots, hsp]] at hcp
      exact Nat.le_of_succ_le (gaussPivots_col_ge fuel rows (c+1) cp hcp)
    | some pr =>
      obtain ⟨p, rest'⟩ := pr
      rw [show gaussPivots (fuel+1) rows c =
          (c, scaleRow (getEntry p c)⁻¹ p) ::
            gaussPivots fuel (rest'.map (elimRow (scaleRow (getEntry p c)⁻¹ p) c)) (c+1) by
        simp only [gaussPivots, hsp]] at hcp
      rcases List.mem_cons.mp hcp with h1 | h1
      · rw [h1]
      · exact Nat.le_of_succ_le (gaussPivots_col_ge fuel _ (c+1) cp h1)

theorem gaussPivots_pairwise : ∀ (fuel : ℕ) (rows : List (List ℚ)) (c : ℕ),
    List.Pairwise (fun a b : ℕ × List ℚ => a.1 < b.1) (gaussPivots fuel rows c)
  | 0, rows, c => by simp [gaussPivots]
  | fuel+1, rows, c => by
    cases hsp : splitPivot c rows with
    | none =>
      rw [show gaussPivots (fuel+1) rows c = gaussPivots fuel rows (c+1) by
        simp only [gaussPivots, hsp]]
      exact gaussPivots_pairwise fuel rows (c+1)
    | some pr =>
      obtain ⟨p, rest'⟩ := pr
      rw [show gaussPivots (fuel+1) rows c =
          (c, scaleRow (getEntry p c)⁻¹ p) ::
            gaussPivots fuel (rest'.map (elimRow (scaleRow (getEntry p c)⁻¹ p) c)) (c+1) by
        simp only [gaussPivots, hsp]]
      refine List.Pairwise.cons ?_ (gaussPivots_pairwise fuel _ (c+1))
      intro cq hcq
      exact Nat.lt_of_succ_le (gaussPivots_col_ge fuel _ (c+1) cq hcq)

theorem gaussPivots_each (n : ℕ) : ∀ (fuel : ℕ) (rows : List (List ℚ)) (c : ℕ),
    (∀ r ∈ rows, r.length = n) →
    (∀ r ∈ rows, ∀ j, j < c → getEntry r j = 0) →
    ∀ cp ∈ gaussPivots fuel rows c,
      getEntry cp.2 cp.1 = 1 ∧ (∀ j, j < cp.1 → getEntry cp.2 j = 0) ∧ cp.2.length = n
  | 0, rows, c, _, _, cp, hcp => by simp [gaussPivots] at hcp
  | fuel+1, rows, c, hlen, hsupp, cp, hcp => by
    cases hsp : splitPivot c rows with
    | none =>
      rw [show gaussPivots (fuel+1) rows c = gaussPivots fuel rows (c+1) by
        simp only [gaussPivots, hsp]] at hcp
      refine gaussPivots_each n fuel rows (c+1) hlen ?_ cp hcp
      intro r hr j hj
      by_cases hj' : j < c
      · exact hsupp r hr j hj'
      · have hjc : j = c := by omega
        rw [hjc]
        exact splitPivot_none c rows hsp r hr
    | some pr =>
      obtain ⟨p, rest'⟩ := pr
      have hperm := splitPivot_perm c rows p rest' hsp
      have hm : getEntry p c ≠ 0 := splitPivot_ne_zero c rows p rest' hsp
      have hp_mem : p ∈ rows := hperm.mem_iff.mpr (by simp)
      rw [show gaussPivots (fuel+1) rows c =
          (c, scaleRow (getEntry p c)⁻¹ p) ::
            gaussPivots fuel (rest'.map (elimRow (scaleRow (getEntry p c)⁻¹ p) c)) (c+1) by
        simp only [gaussPivots, hsp]] at hcp
      rcases List.mem_cons.mp hcp with h1 | h1
      · rw [h1]
        refine ⟨?_, ?_, ?_⟩
        · rw [getEntry_scaleRow, inv_mul_cancel₀ hm]
        · intro j hj
          rw [getEntry_scaleRow, hsupp p hp_mem j hj, mul_zero]
        · rw [scaleRow_length]
          exact hlen p hp_mem
      · refine gaussPivots_each n fuel _ (c+1) ?_ ?_ cp h1
        · intro r' hr'
          obtain ⟨r0, hr0, rfl⟩ := List.mem_map.mp hr'
          have hr0_mem : r0 ∈ rows := hperm.mem_iff.mpr (by simp [hr0])
          unfold elimRow
          rw [addRow_length, scaleRow_length, scaleRow_length, hlen r0 hr0_mem, hlen p hp_mem]
          simp
        · intro r' hr' j hj
          obtain ⟨r0, hr0, rfl⟩ := List.mem_map.mp hr'
          have hr0_mem : r0 ∈ rows := hperm.mem_iff.mpr (by simp [hr0])
          unfold elimRow
          rw [getEntry_addRow, getEntry_scaleRow]
          by_cases hj' : j < c
          · rw [hsupp r0 hr0_mem j hj', getEntry_scaleRow, hsupp p hp_mem j hj']
            ring
          · have hjc : j = c := by omega
            rw [hjc, getEntry_scaleRow, inv_mul_cancel₀ hm]
            ring

theorem gaussPivots_echelon (n : ℕ) (rows : List (List ℚ))
    (hlen : ∀ r ∈ rows, r.length = n) : EchelonProps n (gaussPivots n rows 0) := by
  have heach := gaussPivots_each n n rows 0 hlen (fun r _ j hj => absurd hj (Nat.not_lt_zero j))
  exact ⟨gaussPivots_pairwise n rows 0,
    fun cp hcp => (heach cp hcp).1,
    fun cp hcp => (heach cp hcp).2.1,
    fun cp hcp => (heach cp hcp).2.2⟩

theorem reduceRow_entry_invar (j : ℕ) : ∀ (l : List (ℕ × List ℚ)) (r : List ℚ),
    (∀ cp ∈ l, getEntry cp.2 j = 0) → getEntry (reduceRow r l) j = getEntry r j
  | [], r, _ => by simp [reduceRow]
  | cp0 :: t, r, hl => by
    have h1 : reduceRow r (cp0 :: t) =
        reduceRow (addRow r (scaleRow (-(getEntry r cp0.1)) cp0.2)) t := by
      simp [reduceRow]
    rw [h1, reduceRow_entry_invar j t _ (fun cp hcp => hl cp (by simp [hcp])),
      getEntry_addRow, getEntry_scaleRow, hl cp0 (by simp), mul_zero, add_zero]

theorem reduceRow_length (n : ℕ) : ∀ (l : List (ℕ × List ℚ)) (r : List ℚ),
    (∀ cp ∈ l, cp.2.length = n) → r.length = n → (reduceRow r l).length = n
  | [], r, _, hr => by simpa [reduceRow] using hr
  | cp0 :: t, r, hl, hr => by
    have h1 : reduceRow r (cp0 :: t) =
        reduceRow (addRow r (scaleRow (-(getEntry r cp0.1)) cp0.2)) t := by
      simp [reduceRow]
    rw [h1]
    refine reduceRow_length n t _ (fun cp hcp => hl cp (by simp [hcp])) ?_
    rw [addRow_length, scaleRow_length, hr, hl cp0 (by simp)]
    simp

theorem reduceRow_kills : ∀ (l : List (ℕ × List ℚ)) (r : List ℚ),
    List.Pairwise (fun a b : ℕ × List ℚ => a.1 < b.1) l →
    (∀ cp ∈ l, getEntry cp.2 cp.1 = 1) →
    (∀ cp ∈ l, ∀ j, j < cp.1 → getEntry cp.2 j = 0) →
    ∀ q ∈ pivotCols l, getEntry (reduceRow r l) q = 0
  | [], r, _, _, _, q, hq => by simp [pivotCols] at hq
  | cp0 :: t, r, hpw, hone, hzero, q, hq => by
    have h1 : reduceRow r (cp0 :: t) =
        reduceRow (addRow r (scaleRow (-(getEntry r cp0.1)) cp0.2)) t := by
      simp [reduceRow]
    have hpw_t := (List.pairwise_cons.mp hpw).2
    have hlt : ∀ cq ∈ t, cp0.1 < cq.1 := (List.pairwise_cons.mp hpw).1
    have hq' : q = cp0.1 ∨ q ∈ pivotCols t := by
      have hpc : pivotCols (cp0 :: t) = cp0.1 :: pivotCols t := rfl
      rw [hpc] at hq
      exact List.mem_cons.mp hq
    rcases hq' with hq1 | hq1
    · have hz : ∀ cq ∈ t, getEntry cq.2 cp0.1 = 0 := by
        intro cq hcq
        exact hzero cq (by simp [hcq]) cp0.1 (hlt cq hcq)
      rw [hq1, h1, reduceRow_entry_invar cp0.1 t _ hz, getEntry_addRow, getEntry_scaleRow,
        hone cp0 (by simp)]
      ring
    · rw [h1]
      refine reduceRow_kills t _ hpw_t (fun cp hcp => hone cp (by simp [hcp]))
        (fun cp hcp => hzero cp (by simp [hcp])) q ?_
      simpa [pivotCols] using hq1

theorem backSub_cols : ∀ (piv : List (ℕ × List ℚ)), pivotCols (backSub piv) = pivotCols piv
  | [] => rfl
  | (c, r) :: rest => by
    have h1 : backSub ((c, r) :: rest) = (c, reduceRow r (backSub rest)) :: backSub rest := rfl
    have h2 : pivotCols ((c, reduceRow r (backSub rest)) :: backSub rest) =
        c :: pivotCols (backSub rest) := rfl
    have h3 : pivotCols ((c, r) :: rest) = c :: pivotCols rest := rfl
    rw [h1, h2, h3, backSub_cols rest]

theorem mem_pivotCols (piv : List (ℕ × List ℚ)) (q : ℕ) :
    q ∈ pivotCols piv ↔ ∃ cp ∈ piv, cp.1 = q := by
  simp [pivotCols, List.mem_map]

theorem backSub_struct (n : ℕ) : ∀ (piv : List (ℕ × List ℚ)),
    EchelonProps n piv → RrefProps n (backSub piv)
  | [], _ => by
    refine ⟨⟨by simp [backSub], ?_, ?_, ?_⟩, ?_⟩ <;> intro cp hcp <;> simp [backSub] at hcp
  | (c, r) :: rest, h => by
    obtain ⟨hpw, hone, hzero, hlen⟩ := h
    have hlt : ∀ cq ∈ rest, c < cq.1 := by
      intro cq hcq
      exact (List.pairwise_cons.mp hpw).1 cq hcq
    have hEch_rest : EchelonProps n rest :=
      ⟨(List.pairwise_cons.mp hpw).2,
       fun cp hcp => hone cp (by simp [hcp]),
       fun cp hcp => hzero cp (by simp [hcp]),
       fun cp hcp => hlen cp (by simp [hcp])⟩
    obtain ⟨⟨pw', one', zero', len'⟩, orth'⟩ := backSub_struct n rest hEch_rest
    have hlt' : ∀ cq ∈ backSub rest, c < cq.1 := by
      intro cq hcq
      have : cq.1 ∈ pivotCols (backSub rest) := (mem_pivotCols _ _).mpr ⟨cq, hcq, rfl⟩
      rw [backSub_cols] at this
      obtain ⟨cq0, hcq0, hq0⟩ := (mem_pivotCols _ _).mp this
      rw [← hq0]
      exact hlt cq0 hcq0
    have hzc : ∀ cq ∈ backSub rest, getEntry cq.2 c = 0 := by
      intro cq hcq
      exact zero' cq hcq c (hlt' cq hcq)
    have hb_eq : backSub ((c, r) :: rest) =
        (c, reduceRow r (backSub rest)) :: backSub rest := rfl
    have hr'_one : getEntry (reduceRow r (backSub rest)) c = 1 := by
      rw [reduceRow_entry_invar c (backSub rest) r hzc]
      exact hone (c, r) (by simp)
    have hr'_zero : ∀ j, j < c → getEntry (reduceRow r (backSub rest)) j = 0 := by
      intro j hj
      rw [reduceRow_entry_invar j (backSub rest) r
        (fun cq hcq => zero' cq hcq j (Nat.lt_trans hj (hlt' cq hcq)))]
      exact hzero (c, r) (by simp) j hj
    have hr'_len : (reduceRow r (backSub rest)).length = n :=
      reduceRow_length n (backSub rest) r len' (hlen (c, r) (by simp))
    have hr'_kills : ∀ q ∈ pivotCols (backSub rest),
        getEntry (reduceRow r (backSub rest)) q = 0 :=
      reduceRow_kills (backSub rest) r pw' one' zero'
    rw [hb_eq]
    refine ⟨⟨List.pairwise_cons.mpr ⟨hlt', pw'⟩, ?_, ?_, ?_⟩, ?_⟩
    · intro cp hcp
      rcases List.mem_cons.mp hcp with h1 | h1
      · rw [h1]; exact hr'_one
      · exact one' cp h1
    · intro cp hcp
      rcases List.mem_cons.mp hcp with h1 | h1
      · rw [h1]; exact hr'_zero
      · exact zero' cp h1
    · intro cp hcp
      rcases List.mem_cons.mp hcp with h1 | h1
      · rw [h1]; exact hr'_len
      · exact len' cp h1
    · intro cp hcp cq hcq hne
      rcases List.mem_cons.mp hcp with h1 | h1 <;> rcases List.mem_cons.mp hcq with h2 | h2
      · rw [h1] at hne ⊢; rw [h2] at hne; exact absurd rfl hne
      · rw [h1]
        exact hr'_kills cq.1 ((mem_pivotCols _ _).mpr ⟨cq, h2, rfl⟩)
      · rw [h2]
        exact zero' cp h1 c (hlt' cp h1)
      · exact orth' cp h1 cq h2 hne

theorem rref_props (n : ℕ) (rows : List (List ℚ)) (hlen : ∀ r ∈ rows, r.length = n) :
    RrefProps n (rref n rows) :=
  backSub_struct n _ (gaussPivots_echelon n rows hlen)

theorem rrefProps_col_lt (n : ℕ) (piv : List (ℕ × List ℚ)) (h : RrefProps n piv) :
    ∀ cp ∈ piv, cp.1 < n := by
  intro cp hcp
  by_contra hge
  have h0 : getEntry cp.2 cp.1 = 0 :=
    getEntry_of_length_le cp.2 cp.1 (by rw [h.1.2.2.2 cp hcp]; omega)
  rw [h.1.2.1 cp hcp] at h0
  exact one_ne_zero h0

theorem find?_pivot : ∀ (piv : List (ℕ × List ℚ)),
    List.Pairwise (fun a b : ℕ × List ℚ => a.1 < b.1) piv →
    ∀ (j : ℕ) (cp : ℕ × List ℚ), cp ∈ piv → cp.1 = j →
    piv.find? (fun x => decide (x.1 = j)) = some cp
  | [], _, j, cp, hcp, _ => by simp at hcp
  | cp0 :: t, hpw, j, cp, hcp, hj => by
    by_cases h0 : cp0.1 = j
    · have hcp0 : cp = cp0 := by
        rcases List.mem_cons.mp hcp with h1 | h1
        · exact h1
        · exfalso
          have := (List.pairwise_cons.mp hpw).1 cp h1
          omega
      rw [List.find?_cons_of_pos _ (by simp [h0]), hcp0]
    · have hcp' : cp ∈ t := by
        rcases List.mem_cons.mp hcp with h1 | h1
        · exact absurd (by rw [← h1]; exact hj) h0
        · exact h1
      rw [List.find?_cons_of_neg _ (by simp [h0])]
      exact find?_pivot t (List.pairwise_cons.mp hpw).2 j cp hcp' hj

theorem find?_pivot_none (piv : List (ℕ × List ℚ)) (j : ℕ) (hj : ¬ j ∈ pivotCols piv) :
    piv.find? (fun x => decide (x.1 = j)) = none := by
  rw [List.find?_eq_none]
  intro x hx
  simp only [decide_eq_true_eq]
  intro hxj
  exact hj ((mem_pivotCols _ _).mpr ⟨x, hx, hxj⟩)

theorem basisVector_length (n : ℕ) (piv : List (ℕ × List ℚ)) (f : ℕ) :
    (basisVector n piv f).length = n := by
  simp [basisVector]

theorem getEntry_basisVector (n : ℕ) (piv : List (ℕ × List ℚ)) (f j : ℕ) (hj : j < n) :
    getEntry (basisVector n piv f) j =
      if j = f then 1
      else
        match piv.find? (fun cp => decide (cp.1 = j)) with
        | some cp => -(getEntry cp.2 f)
        | none => 0 := by
  have haux : ∀ (g : ℕ → ℚ), getEntry ((List.range n).map g) j = g j := by
    intro g
    unfold getEntry
    rw [List.getD_eq_getElem _ _ (by simpa using hj), List.getElem_map, List.getElem_range]
  exact haux _

theorem basisVector_at_free (n : ℕ) (piv : List (ℕ × List ℚ)) (f : ℕ) (hf : f < n) :
    getEntry (basisVector n piv f) f = 1 := by
  rw [getEntry_basisVector n piv f f hf, if_pos rfl]

theorem basisVector_at_pivot (n : ℕ) (piv : List (ℕ × List ℚ))
    (hpw : List.Pairwise (fun a b : ℕ × List ℚ => a.1 < b.1) piv)
    (f : ℕ) (cp : ℕ × List ℚ) (hcp : cp ∈ piv) (hlt : cp.1 < n) (hne : cp.1 ≠ f) :
    getEntry (basisVector n piv f) cp.1 = -(getEntry cp.2 f) := by
  rw [getEntry_basisVector n piv f cp.1 hlt, if_neg hne,
    find?_pivot piv hpw cp.1 cp hcp rfl]

theorem basisVector_at_other (n : ℕ) (piv : List (ℕ × List ℚ)) (f j : ℕ) (hj : j < n)
    (hne : j ≠ f) (hnp : ¬ j ∈ pivotCols piv) :
    getEntry (basisVector n piv f) j = 0 := by
  rw [getEntry_basisVector n piv f j hj, if_neg hne, find?_pivot_none piv j hnp]

theorem mem_freeCols (n : ℕ) (piv : List (ℕ × List ℚ)) (f : ℕ) :
    f ∈ freeCols n piv ↔ f < n ∧ ¬ f ∈ pivotCols piv := by
  simp [freeCols]

theorem rref_dot_basis (n : ℕ) (piv : List (ℕ × List ℚ)) (h : RrefProps n piv)
    (f : ℕ) (hf : f ∈ freeCols n piv) :
    ∀ cp ∈ piv, dotTo n cp.2 (basisVector n piv f) = 0 := by
  obtain ⟨hfn, hfp⟩ := (mem_freeCols n piv f).mp hf
  intro cp hcp
  obtain ⟨⟨hpw, hone, hzero, hlen⟩, horth⟩ := h
  have hcols_lt : ∀ cq ∈ piv, cq.1 < n := rrefProps_col_lt n piv ⟨⟨hpw, hone, hzero, hlen⟩, horth⟩
  rw [dotTo_eq_finset]
  have hsub : insert f (pivotCols piv).toFinset ⊆ Finset.range n := by
    intro j hj
    rcases Finset.mem_insert.mp hj with h1 | h1
    · rw [h1]; exact Finset.mem_range.mpr hfn
    · obtain ⟨cq, hcq, hq⟩ := (mem_pivotCols _ _).mp (List.mem_toFinset.mp h1)
      rw [← hq]
      exact Finset.mem_range.mpr (hcols_lt cq hcq)
  rw [← Finset.sum_subset hsub]
  · rw [Finset.sum_insert (by
      intro hmem
      exact hfp (List.mem_toFinset.mp hmem))]
    rw [basisVector_at_free n piv f hfn]
    have hsingle : ∑ q ∈ (pivotCols piv).toFinset,
        getEntry cp.2 q * getEntry (basisVector n piv f) q =
        getEntry cp.2 cp.1 * getEntry (basisVector n piv f) cp.1 := by
      apply Finset.sum_eq_single_of_mem
      · exact List.mem_toFinset.mpr ((mem_pivotCols _ _).mpr ⟨cp, hcp, rfl⟩)
      · intro b hb hbne
        obtain ⟨cq, hcq, hq⟩ := (mem_pivotCols _ _).mp (List.mem_toFinset.mp hb)
        have : getEntry cp.2 b = 0 := by
          rw [← hq]
          exact horth cp hcp cq hcq (by rw [hq]; exact hbne)
        rw [this, zero_mul]
    rw [hsingle, hone cp hcp,
      basisVector_at_pivot n piv hpw f cp hcp (hcols_lt cp hcp)
        (fun hcf => hfp ((mem_pivotCols _ _).mpr ⟨cp, hcp, hcf⟩))]
    ring
  · intro j hjn hjS
    have hjne : j ≠ f := fun hjf => hjS (by rw [hjf]; exact Finset.mem_insert_self f _)
    have hjp : ¬ j ∈ pivotCols piv := fun hjp =>
      hjS (Finset.mem_insert_of_mem (List.mem_toFinset.mpr hjp))
    rw [basisVector_at_other n piv f j (Finset.mem_range.mp hjn) hjne hjp, mul_zero]

theorem freeCols_eq_nil_iff (n : ℕ) (piv : List (ℕ × List ℚ)) :
    freeCols n piv = [] ↔ ∀ j, j < n → j ∈ pivotCols piv := by
  unfold freeCols
  rw [List.filter_eq_nil]
  constructor
  · intro h j hj
    have := h j (List.mem_range.mpr hj)
    simpa using this
  · intro h j hj
    simpa using h j (List.mem_range.mp hj)

theorem not_pivot_mem_freeCols (n : ℕ) (piv : List (ℕ × List ℚ)) (j : ℕ) (hj : j < n)
    (hnp : ¬ j ∈ pivotCols piv) : j ∈ freeCols n piv :=
  (mem_freeCols n piv j).mpr ⟨hj, hnp⟩

theorem rref_null_rank_full (n : ℕ) (piv : List (ℕ × List ℚ)) (h : RrefProps n piv)
    (hfree : freeCols n piv = []) (x : List ℚ)
    (hdot : ∀ cp ∈ piv, dotTo n cp.2 x = 0) :
    ∀ j, j < n → getEntry x j = 0 := by
  intro j hj
  have hallpiv : ∀ k, k < n → k ∈ pivotCols piv := (freeCols_eq_nil_iff n piv).mp hfree
  obtain ⟨cp, hcp, hcpj⟩ := (mem_pivotCols _ _).mp (hallpiv j hj)
  have hd := hdot cp hcp
  rw [dotTo_eq_finset] at hd
  have hsingle : ∑ k ∈ Finset.range n, getEntry cp.2 k * getEntry x k =
      getEntry cp.2 cp.1 * getEntry x cp.1 := by
    apply Finset.sum_eq_single_of_mem
    · exact Finset.mem_range.mpr (rrefProps_col_lt n piv h cp hcp)
    · intro b hb hbne
      obtain ⟨cq, hcq, hq⟩ := (mem_pivotCols _ _).mp (hallpiv b (Finset.mem_range.mp hb))
      rw [show getEntry cp.2 b = 0 from by
        rw [← hq]; exact h.2 cp hcp cq hcq (by rw [hq]; exact hbne), zero_mul]
  rw [hsingle, h.1.2.1 cp hcp, one_mul] at hd
  rw [← hcpj]
  exact hd

theorem rref_null_one_free (n : ℕ) (piv : List (ℕ × List ℚ)) (h : RrefProps n piv)
    (f0 : ℕ) (hfree : freeCols n piv = [f0]) (x : List ℚ)
    (hdot : ∀ cp ∈ piv, dotTo n cp.2 x = 0) :
    ∀ j, j < n → getEntry x j = getEntry x f0 * getEntry (basisVector n piv f0) j := by
  have hf0 : f0 ∈ freeCols n piv := by rw [hfree]; simp
  obtain ⟨hf0n, hf0p⟩ := (mem_freeCols n piv f0).mp hf0
  intro j hj
  by_cases hjf : j = f0
  · rw [hjf, basisVector_at_free n piv f0 hf0n, mul_one]
  · have hjp : j ∈ pivotCols piv := by
      by_contra hnp
      have : j ∈ freeCols n piv := not_pivot_mem_freeCols n piv j hj hnp
      rw [hfree] at this
      simp at this
      exact hjf this
    obtain ⟨cp, hcp, hcpj⟩ := (mem_pivotCols _ _).mp hjp
    have hcpf : cp.1 ≠ f0 := by
      intro hne
      exact hf0p ((mem_pivotCols _ _).mpr ⟨cp, hcp, hne⟩)
    have hd := hdot cp hcp
    rw [dotTo_eq_finset] at hd
    have hsub : ({cp.1, f0} : Finset ℕ) ⊆ Finset.range n := by
      intro k hk
      rcases Finset.mem_insert.mp hk with h1 | h1
      · rw [h1]; exact Finset.mem_range.mpr (rrefProps_col_lt n piv h cp hcp)
      · rw [Finset.mem_singleton.mp h1]; exact Finset.mem_range.mpr hf0n
    rw [← Finset.sum_subset hsub ?van] at hd
    case van =>
      intro k hkn hkS
      have hkne1 : k ≠ cp.1 := fun hk => hkS (by rw [hk]; exact Finset.mem_insert_self _ _)
      have hkne2 : k ≠ f0 := fun hk =>
        hkS (by rw [hk]; exact Finset.mem_insert_of_mem (Finset.mem_singleton_self _))
      have hkp : k ∈ pivotCols piv := by
        by_contra hnp
        have : k ∈ freeCols n piv :=
          not_pivot_mem_freeCols n piv k (Finset.mem_range.mp hkn) hnp
        rw [hfree] at this
        simp at this
        exact hkne2 this
      obtain ⟨cq, hcq, hq⟩ := (mem_pivotCols _ _).mp hkp
      rw [show getEntry cp.2 k = 0 from by
        rw [← hq]
        exact h.2 cp hcp cq hcq (fun he => hkne1 (by rw [← hq]; exact he)), zero_mul]
    rw [Finset.sum_pair hcpf] at hd
    rw [h.1.2.1 cp hcp, one_mul] at hd
    rw [← hcpj,
      basisVector_at_pivot n piv h.1.1 f0 cp hcp (rrefProps_col_lt n piv h cp hcp) hcpf]
    linarith

theorem nullspaceBasis_mem_len (n : ℕ) (rows : List (List ℚ)) :
    ∀ b ∈ nullspaceBasis n rows, b.length = n := by
  intro b hb
  obtain ⟨f, _, rfl⟩ := List.mem_map.mp hb
  exact basisVector_length n _ f

theorem nullspaceBasis_sound (n : ℕ) (rows : List (List ℚ))
    (hlen : ∀ r ∈ rows, r.length = n) :
    ∀ b ∈ nullspaceBasis n rows, ∀ r ∈ rows, dotTo n r b = 0 := by
  intro b hb r hr
  obtain ⟨f, hf, rfl⟩ := List.mem_map.mp hb
  have hrref := rref_dot_basis n (rref n rows) (rref_props n rows hlen) f hf
  have hgauss : ∀ cp ∈ gaussPivots n rows 0, dotTo n cp.2 (basisVector n (rref n rows) f) = 0 :=
    backSub_sound n _ (gaussPivots n rows 0) hrref
  refine gaussPivots_sound n _ n rows 0 hgauss ?_ r hr
  intro r' hr' j hj
  rcases hj with hj | hj
  · omega
  · exact getEntry_of_length_le r' j (by rw [hlen r' hr']; omega)

theorem balance_ok_elim (M : List (List ℚ)) (statuses : List Bool) (v : List ℚ)
    (h : balance_stoichiometry M statuses = .ok v) :
    ∃ u, nullspaceBasis (numCols M) M = [u] ∧
      v = rationalize (signNormalize (firstKnown statuses) u) := by
  unfold balance_stoichiometry at h
  cases hb : nullspaceBasis (numCols M) M with
  | nil => rw [hb] at h; exact absurd h (by simp)
  | cons u t =>
    cases t with
    | nil =>
      rw [hb] at h
      simp only [Except.ok.injEq] at h
      exact ⟨u, rfl, h.symm⟩
    | cons u2 t2 => rw [hb] at h; exact absurd h (by simp)

theorem balance_infeasible_iff (M : List (List ℚ)) (statuses : List Bool) :
    balance_stoichiometry M statuses = .error .infeasible ↔
      nullspaceBasis (numCols M) M = [] := by
  unfold balance_stoichiometry
  cases hb : nullspaceBasis (numCols M) M with
  | nil => simp
  | cons u t => cases t with
    | nil => simp
    | cons u2 t2 => simp

theorem balance_underdet_iff (M : List (List ℚ)) (statuses : List Bool) :
    balance_stoichiometry M statuses = .error .underdetermined ↔
      2 ≤ (nullspaceBasis (numCols M) M).length := by
  unfold balance_stoichiometry
  cases hb : nullspaceBasis (numCols M) M with
  | nil => simp
  | cons u t => cases t with
    | nil => simp
    | cons u2 t2 => simp

theorem basis_singleton_elim (n : ℕ) (rows : List (List ℚ)) (u : List ℚ)
    (h : nullspaceBasis n rows = [u]) :
    ∃ f, freeCols n (rref n rows) = [f] ∧ u = basisVector n (rref n rows) f := by
  cases hfc : freeCols n (rref n rows) with
  | nil =>
    exfalso
    have hnil : nullspaceBasis n rows = [] := by
      unfold nullspaceBasis
      rw [hfc]
      rfl
    rw [h] at hnil
    exact absurd hnil (by simp)
  | cons f t =>
    cases t with
    | nil =>
      have hcons : nullspaceBasis n rows = [basisVector n (rref n rows) f] := by
        unfold nullspaceBasis
        rw [hfc]
        rfl
      rw [h] at hcons
      simp only [List.cons.injEq] at hcons
      exact ⟨f, rfl, hcons.1⟩
    | cons f1 t2 =>
      exfalso
      have hcons : nullspaceBasis n rows =
          basisVector n (rref n rows) f :: basisVector n (rref n rows) f1 ::
            t2.map (basisVector n (rref n rows)) := by
        unfold nullspaceBasis
        rw [hfc]
        rfl
      rw [h] at hcons
      exact absurd hcons (by simp)

theorem denLcm_cons (q : ℚ) (t : List ℚ) : denLcm (q :: t) = Nat.lcm q.den (denLcm t) := rfl

theorem intGcd_cons (z : ℤ) (t : List ℤ) : intGcd (z :: t) = Nat.gcd z.natAbs (intGcd t) := rfl

theorem denLcm_pos : ∀ (v : List ℚ), 0 < denLcm v
  | [] => Nat.one_pos
  | q :: t => by
    rw [denLcm_cons]
    have ht := denLcm_pos t
    have hq := q.pos
    exact Nat.lcm_pos hq ht

theorem den_dvd_denLcm : ∀ (v : List ℚ) (q : ℚ), q ∈ v → q.den ∣ denLcm v
  | [], q, h => absurd h (by simp)
  | q0 :: t, q, h => by
    rw [denLcm_cons]
    rcases List.mem_cons.mp h with h1 | h1
    · rw [h1]; exact Nat.dvd_lcm_left _ _
    · exact (den_dvd_denLcm t q h1).trans (Nat.dvd_lcm_right _ _)

theorem num_eq_den_mul (q : ℚ) : (q.num : ℚ) = q * (q.den : ℚ) := by
  have hden : ((q.den : ℚ)) ≠ 0 := by
    exact_mod_cast q.den_nz
  calc (q.num : ℚ) = (q.num : ℚ) / (q.den : ℚ) * (q.den : ℚ) :=
        (div_mul_cancel₀ _ hden).symm
    _ = q * (q.den : ℚ) := by rw [Rat.num_div_den q]

theorem intEntry_eq (v : List ℚ) (q : ℚ) (hq : q ∈ v) :
    ((q.num * ((denLcm v / q.den : ℕ) : ℤ) : ℤ) : ℚ) = (denLcm v : ℚ) * q := by
  obtain ⟨t, ht⟩ := den_dvd_denLcm v q hq
  have hdiv : denLcm v / q.den = t := by
    rw [ht]
    exact Nat.mul_div_cancel_left t q.pos
  rw [hdiv]
  push_cast
  rw [num_eq_den_mul q, ht]
  push_cast
  ring

theorem div_den_pos (v : List ℚ) (q : ℚ) (hq : q ∈ v) : 0 < denLcm v / q.den :=
  Nat.div_pos (Nat.le_of_dvd (denLcm_pos v) (den_dvd_denLcm v q hq)) q.pos

theorem intEntry_eq_zero_iff (v : List ℚ) (q : ℚ) (hq : q ∈ v) :
    q.num * ((denLcm v / q.den : ℕ) : ℤ) = 0 ↔ q = 0 := by
  rw [mul_eq_zero]
  constructor
  · intro h
    rcases h with h | h
    · exact Rat.num_eq_zero.mp h
    · exfalso
      have := div_den_pos v q hq
      omega
  · intro h
    exact Or.inl (Rat.num_eq_zero.mpr h)

theorem intGcd_dvd : ∀ (zs : List ℤ) (z : ℤ), z ∈ zs → (intGcd zs : ℤ) ∣ z
  | [], z, h => absurd h (by simp)
  | z0 :: t, z, h => by
    rw [intGcd_cons]
    rcases List.mem_cons.mp h with h1 | h1
    · rw [h1]
      refine dvd_trans ?_ (Int.natAbs_dvd.mpr dvd_rfl)
      exact_mod_cast Int.natCast_dvd_natCast.mpr (Nat.gcd_dvd_left _ _)
    · exact dvd_trans (Int.natCast_dvd_natCast.mpr (Nat.gcd_dvd_right _ _)) (intGcd_dvd t z h1)

theorem intGcd_eq_zero_iff : ∀ (zs : List ℤ), intGcd zs = 0 ↔ ∀ z ∈ zs, z = 0
  | [] => by simp [intGcd]
  | z :: t => by
    rw [intGcd_cons]
    rw [Nat.gcd_eq_zero_iff]
    constructor
    · intro ⟨h1, h2⟩ z' hz'
      rcases List.mem_cons.mp hz' with h3 | h3
      · rw [h3]; exact Int.natAbs_eq_zero.mp h1
      · exact (intGcd_eq_zero_iff t).mp h2 z' h3
    · intro h
      refine ⟨Int.natAbs_eq_zero.mpr (h z (by simp)), ?_⟩
      exact (intGcd_eq_zero_iff t).mpr (fun z' hz' => h z' (by simp [hz']))

theorem intGcd_mul_left (g : ℕ) : ∀ (ms : List ℤ),
    intGcd (ms.map (fun m => (g : ℤ) * m)) = g * intGcd ms
  | [] => by simp [intGcd]
  | m :: t => by
    rw [List.map_cons, intGcd_cons, intGcd_cons, intGcd_mul_left g t, Int.natAbs_mul]
    rw [Int.natAbs_ofNat, Nat.gcd_mul_left]

theorem dvd_intGcd (d : ℕ) : ∀ (zs : List ℤ), (∀ z ∈ zs, (d : ℤ) ∣ z) → d ∣ intGcd zs
  | [] => by intro _; simp [intGcd]
  | z :: t => by
    intro h
    rw [intGcd_cons]
    refine Nat.dvd_gcd ?_ (dvd_intGcd d t (fun z' hz' => h z' (by simp [hz'])))
    exact Int.natCast_dvd_natCast.mp (Int.dvd_natAbs.mpr (h z (by simp)))

theorem intGcd_eq_of_natAbs : ∀ (l : List ℚ) (h1 h2 : ℚ → ℤ),
    (∀ q ∈ l, (h1 q).natAbs = (h2 q).natAbs) →
    intGcd (l.map h1) = intGcd (l.map h2)
  | [], _, _, _ => rfl
  | q :: t, h1, h2, h => by
    rw [List.map_cons, List.map_cons, intGcd_cons, intGcd_cons, h q (by simp),
      intGcd_eq_of_natAbs t h1 h2 (fun q' hq' => h q' (by simp [hq']))]

theorem intList_ne_zero_exists (v : List ℚ) (hex : ∃ q ∈ v, q ≠ 0) :
    intGcd (intList v) ≠ 0 := by
  obtain ⟨q0, hq0, hne⟩ := hex
  intro h
  have hall := (intGcd_eq_zero_iff (intList v)).mp h
  have hz : q0.num * ((denLcm v / q0.den : ℕ) : ℤ) ∈ intList v :=
    List.mem_map_of_mem _ hq0
  exact hne ((intEntry_eq_zero_iff v q0 hq0).mp (hall _ hz))

theorem intScale_pos (v : List ℚ) : 0 < intScale v := by
  unfold intScale
  split
  · exact one_pos
  · rename_i h
    apply div_pos
    · exact_mod_cast denLcm_pos v
    · exact_mod_cast Nat.pos_of_ne_zero h

theorem intScale_ne_zero (v : List ℚ) : intScale v ≠ 0 :=
  ne_of_gt (intScale_pos v)

theorem rationalize_entry (v : List ℚ) (hex : ∃ q ∈ v, q ≠ 0) (q : ℚ) (hq : q ∈ v) :
    intScale v * q =
      ((q.num * ((denLcm v / q.den : ℕ) : ℤ) / (intGcd (intList v) : ℤ) : ℤ) : ℚ) := by
  have hg := intList_ne_zero_exists v hex
  have hgz : (intGcd (intList v) : ℤ) ≠ 0 := by exact_mod_cast hg
  obtain ⟨m, hm⟩ := intGcd_dvd (intList v) _ (List.mem_map_of_mem
    (fun q => q.num * ((denLcm v / q.den : ℕ) : ℤ)) hq)
  have hLq : (denLcm v : ℚ) * q = ((intGcd (intList v) : ℚ)) * (m : ℚ) := by
    have h1 := intEntry_eq v q hq
    rw [hm] at h1
    push_cast at h1
    linarith
  unfold intScale
  rw [if_neg hg, hm, Int.mul_ediv_cancel_left _ hgz]
  calc ((denLcm v : ℕ) : ℚ) / ((intGcd (intList v) : ℕ) : ℚ) * q
      = ((denLcm v : ℚ) * q) / ((intGcd (intList v) : ℚ)) := by ring
    _ = (((intGcd (intList v) : ℚ)) * (m : ℚ)) / ((intGcd (intList v) : ℚ)) := by rw [hLq]
    _ = ((m : ℤ) : ℚ) := by
          rw [mul_div_cancel_left₀]
          exact_mod_cast hg

theorem rationalize_isInt (v : List ℚ) (hex : ∃ q ∈ v, q ≠ 0) : isIntVec (rationalize v) := by
  intro x hx
  obtain ⟨q, hq, rfl⟩ := List.mem_map.mp hx
  rw [rationalize_entry v hex q hq]
  exact Rat.den_intCast _

theorem rationalize_num (v : List ℚ) (hex : ∃ q ∈ v, q ≠ 0) (q : ℚ) (hq : q ∈ v) :
    (intScale v * q).num =
      q.num * ((denLcm v / q.den : ℕ) : ℤ) / (intGcd (intList v) : ℤ) := by
  rw [rationalize_entry v hex q hq]
  exact Rat.num_intCast _

theorem rationalize_vecGcd (v : List ℚ) (hex : ∃ q ∈ v, q ≠ 0) : vecGcd (rationalize v) = 1 := by
  have hg := intList_ne_zero_exists v hex
  unfold vecGcd
  have h1 : (rationalize v).map Rat.num =
      v.map (fun q => q.num * ((denLcm v / q.den : ℕ) : ℤ) / (intGcd (intList v) : ℤ)) := by
    rw [show rationalize v = v.map (fun q => intScale v * q) from rfl, List.map_map]
    apply List.map_congr_left
    intro q hq
    exact rationalize_num v hex q hq
  rw [h1]
  have h4 : v.map (fun q => q.num * ((denLcm v / q.den : ℕ) : ℤ)) =
      (v.map (fun q =>
        q.num * ((denLcm v / q.den : ℕ) : ℤ) / (intGcd (intList v) : ℤ))).map
        (fun m => (intGcd (intList v) : ℤ) * m) := by
    rw [List.map_map]
    apply List.map_congr_left
    intro q hq
    exact (Int.mul_ediv_cancel' (intGcd_dvd (intList v) _ (List.mem_map_of_mem _ hq))).symm
  have h6 : intGcd (intList v) = intGcd (intList v) *
      intGcd (v.map (fun q =>
        q.num * ((denLcm v / q.den : ℕ) : ℤ) / (intGcd (intList v) : ℤ))) := by
    conv_lhs => rw [show intList v = v.map (fun q => q.num * ((denLcm v / q.den : ℕ) : ℤ))
      from rfl, h4]
    exact intGcd_mul_left (intGcd (intList v)) _
  exact Nat.eq_of_mul_eq_mul_left (Nat.pos_of_ne_zero hg) (h6.symm.trans (mul_one _).symm)

theorem rationalize_pos (v : List ℚ) (hpos : ∀ q ∈ v, 0 < q) :
    ∀ q ∈ rationalize v, 0 < q := by
  intro q hq
  obtain ⟨q0, hq0, rfl⟩ := List.mem_map.mp hq
  exact mul_pos (intScale_pos v) (hpos q0 hq0)

theorem getEntry_rationalize (v : List ℚ) (j : ℕ) :
    getEntry (rationalize v) j = intScale v * getEntry v j :=
  getEntry_scaleRow (intScale v) v j

theorem firstKnown_cons_true (rest : List Bool) : firstKnown (true :: rest) = 0 := rfl

theorem firstKnown_cons_false (rest : List Bool) :
    firstKnown (false :: rest) = firstKnown rest + 1 := rfl

theorem firstKnown_lt : ∀ (statuses : List Bool),
    statuses.all (fun b => !b) = false → firstKnown statuses < statuses.length := by
  intro statuses
  induction statuses with
  | nil => intro h; simp at h
  | cons b rest ih =>
    intro h
    cases b with
    | true =>
      rw [firstKnown_cons_true, List.length_cons]
      omega
    | false =>
      rw [List.all_cons] at h
      simp only [Bool.not_false, Bool.true_and] at h
      rw [firstKnown_cons_false, List.length_cons]
      have := ih h
      omega

theorem signNormalize_length (k : ℕ) (v : List ℚ) :
    (signNormalize k v).length = v.length := by
  unfold signNormalize
  split
  · exact scaleRow_length _ _
  · rfl

theorem signNormalize_cases (k : ℕ) (v : List ℚ) :
    signNormalize k v = v ∨ signNormalize k v = scaleRow (-1) v := by
  unfold signNormalize
  split
  · exact Or.inr rfl
  · exact Or.inl rfl

theorem signNormalize_has_nonzero (k : ℕ) (v : List ℚ) (hex : ∃ q ∈ v, q ≠ 0) :
    ∃ q ∈ signNormalize k v, q ≠ 0 := by
  obtain ⟨q, hq, hne⟩ := hex
  rcases signNormalize_cases k v with h | h
  · exact ⟨q, by rw [h]; exact hq, hne⟩
  · refine ⟨(-1) * q, by rw [h]; exact List.mem_map_of_mem _ hq, ?_⟩
    intro h0
    apply hne
    linarith [h0]

theorem signNormalize_entry_nonneg (k : ℕ) (v : List ℚ) :
    0 ≤ getEntry (signNormalize k v) k := by
  unfold signNormalize
  split
  · rename_i h
    rw [getEntry_scaleRow]
    linarith
  · rename_i h
    push_neg at h
    exact h

theorem dotTo_signNormalize (n k : ℕ) (r u : List ℚ) (h : dotTo n r u = 0) :
    dotTo n r (signNormalize k u) = 0 := by
  rcases signNormalize_cases k u with hs | hs
  · rw [hs]; exact h
  · rw [hs, dotTo_scaleRow_right, h, mul_zero]

theorem signNormalize_pos (k : ℕ) (u w : List ℚ) (c : ℚ) (hc : c ≠ 0)
    (hw : w = scaleRow c u) (hw_pos : ∀ q ∈ w, 0 < q) (hk : k < u.length) :
    ∀ q ∈ signNormalize k u, 0 < q := by
  have hukw : getEntry w k = c * getEntry u k := by
    rw [hw, getEntry_scaleRow]
  have hwk_pos : 0 < getEntry w k := by
    apply hw_pos
    apply getEntry_mem
    rw [hw, scaleRow_length]
    exact hk
  rw [hukw] at hwk_pos
  rcases lt_trichotomy c 0 with hcneg | hczero | hcpos
  · have huk : getEntry u k < 0 := by
      by_contra hge
      push_neg at hge
      have hle : c * getEntry u k ≤ 0 := mul_nonpos_iff.mpr (Or.inr ⟨le_of_lt hcneg, hge⟩)
      linarith
    unfold signNormalize
    rw [if_pos huk]
    intro q hq
    obtain ⟨q0, hq0, rfl⟩ := List.mem_map.mp hq
    have hcq0 : 0 < c * q0 := hw_pos _ (by rw [hw]; exact List.mem_map_of_mem _ hq0)
    have hq0_neg : q0 < 0 := by
      by_contra hge
      push_neg at hge
      have hle : c * q0 ≤ 0 := mul_nonpos_iff.mpr (Or.inr ⟨le_of_lt hcneg, hge⟩)
      linarith
    linarith
  · exact absurd hczero hc
  · have huk : ¬ (getEntry u k < 0) := by
      push_neg
      by_contra hlt
      push_neg at hlt
      have hle : c * getEntry u k ≤ 0 :=
        mul_nonpos_iff.mpr (Or.inl ⟨le_of_lt hcpos, le_of_lt hlt⟩)
      linarith
    unfold signNormalize
    rw [if_neg huk]
    intro q hq
    have hcq : 0 < c * q := hw_pos _ (by rw [hw]; exact List.mem_map_of_mem _ hq)
    rcases mul_pos_iff.mp hcq with ⟨_, h2⟩ | ⟨h1, _⟩
    · exact h2
    · linarith

theorem vecGcd_eq_zero_of_all_zero (w : List ℚ) (h : ∀ q ∈ w, q = 0) : vecGcd w = 0 := by
  unfold vecGcd
  rw [intGcd_eq_zero_iff]
  intro z hz
  obtain ⟨q, hq, rfl⟩ := List.mem_map.mp hz
  rw [h q hq]
  rfl

theorem isIntVec_eq_num (w : List ℚ) (h : isIntVec w) (q : ℚ) (hq : q ∈ w) :
    q = ((q.num : ℤ) : ℚ) := by
  have hden := h q hq
  conv_lhs => rw [← Rat.num_div_den q, hden]
  simp

theorem vecGcd_has_nonzero (w : List ℚ) (h : vecGcd w = 1) : ∃ q ∈ w, q ≠ 0 := by
  by_contra hall
  push_neg at hall
  rw [vecGcd_eq_zero_of_all_zero w hall] at h
  exact absurd h (by omega)

theorem unique_rep_pos (w1 w2 : List ℚ) (c : ℚ) (hc_pos : 0 < c) (hw2 : w2 = scaleRow c w1)
    (hint1 : isIntVec w1) (hint2 : isIntVec w2) (hg1 : vecGcd w1 = 1) (hg2 : vecGcd w2 = 1) :
    w1 = w2 := by
  have key : ∀ q ∈ w1, (c.den : ℤ) * (c * q).num = c.num * q.num := by
    intro q hq
    have h1 : q = ((q.num : ℤ) : ℚ) := isIntVec_eq_num w1 hint1 q hq
    have h2 : (c * q) = (((c * q).num : ℤ) : ℚ) :=
      isIntVec_eq_num w2 hint2 _ (by rw [hw2]; exact List.mem_map_of_mem _ hq)
    have hstep : ((c.den : ℚ)) * (c * q) = (c.num : ℚ) * q := by
      calc ((c.den : ℚ)) * (c * q) = (c * (c.den : ℚ)) * q := by ring
        _ = (c.num : ℚ) * q := by rw [← num_eq_den_mul c]
    rw [h2] at hstep
    conv_rhs at hstep => rw [h1]
    exact_mod_cast hstep
  have hQ_dvd : ∀ q ∈ w1, (c.den : ℤ) ∣ q.num := by
    intro q hq
    have hdvd : (c.den : ℤ) ∣ c.num * q.num := ⟨(c * q).num, (key q hq).symm⟩
    have hdvd_nat : c.den ∣ c.num.natAbs * q.num.natAbs := by
      rw [← Int.natAbs_mul]
      exact Int.natCast_dvd_natCast.mp (Int.dvd_natAbs.mpr hdvd)
    have hcop : Nat.Coprime c.den c.num.natAbs := (c.reduced).symm
    have := hcop.dvd_of_dvd_mul_left hdvd_nat
    exact Int.dvd_natAbs.mp (Int.natCast_dvd_natCast.mpr this)
  have hQ1 : c.den = 1 := by
    have hdvdg : c.den ∣ vecGcd w1 := by
      apply dvd_intGcd
      intro z hz
      obtain ⟨q, hq, rfl⟩ := List.mem_map.mp hz
      exact hQ_dvd q hq
    rw [hg1] at hdvdg
    exact Nat.dvd_one.mp hdvdg
  have hc_int : c = ((c.num : ℤ) : ℚ) := by
    conv_lhs => rw [← Rat.num_div_den c, hQ1]
    simp
  have hP_pos : 0 < c.num := Rat.num_pos.mpr hc_pos
  have hnum_rel : ∀ q ∈ w1, (c * q).num = c.num * q.num := by
    intro q hq
    have := key q hq
    rw [hQ1] at this
    simpa using this
  have hmap : w2.map Rat.num = (w1.map Rat.num).map (fun z => ((c.num.toNat : ℕ) : ℤ) * z) := by
    rw [hw2]
    have h1 : scaleRow c w1 = w1.map (fun q => c * q) := rfl
    rw [h1, List.map_map, List.map_map]
    apply List.map_congr_left
    intro q hq
    have h2 := hnum_rel q hq
    simp only [Function.comp_apply]
    rw [h2, Int.toNat_of_nonneg (le_of_lt hP_pos)]
  have hgcd2 : vecGcd w2 = c.num.toNat * vecGcd w1 := by
    unfold vecGcd
    rw [hmap, intGcd_mul_left]
  rw [hg1, hg2, mul_one] at hgcd2
  have hP1 : c.num = 1 := by
    have := hgcd2.symm
    have h1 : c.num = ((1 : ℕ) : ℤ) := by
      rw [← this, Int.toNat_of_nonneg (le_of_lt hP_pos)]
    simpa using h1
  have hc1 : c = 1 := by
    rw [hc_int, hP1]
    simp
  rw [hw2, hc1, scaleRow_one]

theorem stoich_ok_elim (atomss : List Species) (statuses : List Bool) (M : List (List ℚ))
    (h : stoichiometric_matrix atomss statuses = .ok M) :
    atomss.length = statuses.length ∧ 2 ≤ atomss.length ∧
      (¬ statuses.all (fun b => b)) ∧ (¬ statuses.all (fun b => !b)) ∧
      M = (collectKeys atomss).map (fun k =>
        (atomss.zip statuses).map (fun p => signedCount p.1 p.2 k)) := by
  unfold stoichiometric_matrix at h
  by_cases hcond : atomss.length = statuses.length ∧ 2 ≤ atomss.length ∧
      (¬ statuses.all (fun b => b)) ∧ (¬ statuses.all (fun b => !b))
  · rw [if_pos hcond] at h
    simp only [Except.ok.injEq] at h
    exact ⟨hcond.1, hcond.2.1, hcond.2.2.1, hcond.2.2.2, h.symm⟩
  · rw [if_neg hcond] at h
    exact absurd h (by simp)

theorem stoich_row_length (atomss : List Species) (statuses : List Bool) (M : List (List ℚ))
    (h : stoichiometric_matrix atomss statuses = .ok M) :
    ∀ r ∈ M, r.length = atomss.length := by
  obtain ⟨hlen, _, _, _, hM⟩ := stoich_ok_elim atomss statuses M h
  intro r hr
  rw [hM] at hr
  obtain ⟨k, _, rfl⟩ := List.mem_map.mp hr
  rw [List.length_map, List.length_zip, ← hlen, Nat.min_self]

theorem stoich_numCols (atomss : List Species) (statuses : List Bool) (M : List (List ℚ))
    (h : stoichiometric_matrix atomss statuses = .ok M) (hne : M ≠ []) :
    numCols M = atomss.length := by
  cases M with
  | nil => exact absurd rfl hne
  | cons r t =>
    have h1 : numCols (r :: t) = r.length := rfl
    rw [h1]
    exact stoich_row_length atomss statuses (r :: t) h r (by simp)

theorem stoich_rows_numCols (atomss : List Species) (statuses : List Bool) (M : List (List ℚ))
    (h : stoichiometric_matrix atomss statuses = .ok M) :
    ∀ r ∈ M, r.length = numCols M := by
  intro r hr
  have hne : M ≠ [] := by
    intro hnil
    rw [hnil] at hr
    simp at hr
  rw [stoich_row_length atomss statuses M h r hr, stoich_numCols atomss statuses M h hne]

theorem eq_of_getEntry_eq (l1 l2 : List ℚ) (hlen : l1.length = l2.length)
    (h : ∀ j, j < l1.length → getEntry l1 j = getEntry l2 j) : l1 = l2 := by
  apply List.ext_getElem hlen
  intro i h1 h2
  have := h i h1
  rw [getEntry, getEntry, List.getD_eq_getElem _ _ h1, List.getD_eq_getElem _ _ h2] at this
  exact this

theorem getEntry_replicate (n j : ℕ) : getEntry (List.replicate n (0 : ℚ)) j = 0 := by
  unfold getEntry
  by_cases h : j < n
  · rw [List.getD_eq_getElem _ _ (by simpa using h), List.getElem_replicate]
  · rw [List.getD_eq_default _ _ (by simpa using h)]

theorem mem_all_zero (x : List ℚ) (h : ∀ j, j < x.length → getEntry x j = 0) :
    ∀ q ∈ x, q = 0 := by
  intro q hq
  obtain ⟨i, hi, rfl⟩ := List.mem_iff_getElem.mp hq
  have := h i hi
  rw [getEntry, List.getD_eq_getElem _ _ hi] at this
  exact this

/-- Claim C1: for every valid input (species list and known/unknown partition
accepted by `stoichiometric_matrix` without error), the coefficient vector
returned by `balance_stoichiometry` multiplied by the conservation matrix
yields the zero vector: each row residual is exactly `0`, hence within the
absolute tolerance `1e-13`. -/
theorem conservation_zipDot (atomss : List Species) (statuses : List Bool)
    (M : List (List ℚ)) (v : List ℚ)
    (hM : stoichiometric_matrix atomss statuses = .ok M)
    (hv : balance_stoichiometry M statuses = .ok v) :
    ∀ r ∈ M, zipDot r v = 0 := by
  intro r hr
  have hrows : ∀ r' ∈ M, r'.length = numCols M := stoich_rows_numCols atomss statuses M hM
  obtain ⟨u, hbasis, hv_eq⟩ := balance_ok_elim M statuses v hv
  have hu_mem : u ∈ nullspaceBasis (numCols M) M := by rw [hbasis]; simp
  have hnull := nullspaceBasis_sound (numCols M) M hrows u hu_mem r hr
  have hnull_sn : dotTo (numCols M) r (signNormalize (firstKnown statuses) u) = 0 :=
    dotTo_signNormalize (numCols M) (firstKnown statuses) r u hnull
  have hdot : dotTo (numCols M) r v = 0 := by
    rw [hv_eq, show rationalize (signNormalize (firstKnown statuses) u) =
      scaleRow (intScale (signNormalize (firstKnown statuses) u))
        (signNormalize (firstKnown statuses) u) from rfl, dotTo_scaleRow_right,
      hnull_sn, mul_zero]
  have hvlen : v.length ≤ numCols M := by
    rw [hv_eq, show (rationalize (signNormalize (firstKnown statuses) u)).length =
      (signNormalize (firstKnown statuses) u).length from scaleRow_length _ _,
      signNormalize_length, nullspaceBasis_mem_len (numCols M) M u hu_mem]
  rw [zipDot_eq_dotTo _ r v hvlen, hdot]

/-- Claim C1: for every valid input (species list and known/unknown partition
accepted by `stoichiometric_matrix` without error), the coefficient vector
returned by `balance_stoichiometry` multiplied by the conservation matrix
yields the zero vector: each row residual is exactly `0`, hence within the
absolute tolerance `1e-13`. -/
theorem C1_conservation (atomss : List Species) (statuses : List Bool)
    (M : List (List ℚ)) (v : List ℚ)
    (hM : stoichiometric_matrix atomss statuses = .ok M)
    (hv : balance_stoichiometry M statuses = .ok v) :
    ∀ r ∈ M, zipDot r v = 0 ∧ |zipDot r v| ≤ 1 / 10 ^ 13 := by
  intro r hr
  have h0 := conservation_zipDot atomss statuses M v hM hv r hr
  refine ⟨h0, ?_⟩
  rw [h0]
  norm_num

theorem C1_conservation_witness :
    zipDot [1, -1, 0] [2, 2, 1] = 0 ∧ |zipDot [1, -1, 0] [2, 2, 1]| ≤ 1 / 10 ^ 13 :=
  C1_conservation [[("Mg", 1), ("O", 1)], [("Mg", 1)], [("O", 2)]] [true, false, false]
    [[1, -1, 0], [1, 0, -2]] [2, 2, 1]
    (by simp [stoichiometric_matrix, collectKeys, signedCount, atomCount, List.find?])
    (by norm_num [balance_stoichiometry, nullspaceBasis, rref, gaussPivots, splitPivot,
      backSub, reduceRow, elimRow, basisVector, freeCols, pivotCols, numCols, rationalize,
      signNormalize, firstKnown, intScale, denLcm, intList, intGcd, scaleRow, addRow,
      getEntry, List.find?, List.range_succ])
    [1, -1, 0] (by simp)

/-- Claim C2: `balance_stoichiometry` applied to the matrix built by
`stoichiometric_matrix` returns exactly the documented coefficients for the
canonical reactions: iron oxidation (`4 Fe + 3 O2 -> 2 Fe2O3`) and the
charged water-formation reaction (`H+ + OH- -> H2O`, with the
formal-charge pseudo-element `p`). -/
theorem C2_canonical_reactions :
    (stoichiometric_matrix [[("Fe", 1)], [("O", 2)], [("Fe", 2), ("O", 3)]]
        [true, true, false] = .ok [[1, 0, -2], [0, 2, -3]] ∧
      balance_stoichiometry [[1, 0, -2], [0, 2, -3]] [true, true, false] = .ok [4, 3, 2]) ∧
    (stoichiometric_matrix
        [[("H", 1), ("p", 1)], [("H", 1), ("O", 1), ("p", -1)], [("H", 2), ("O", 1)]]
        [true, true, false] = .ok [[1, 1, -2], [1, -1, 0], [0, 1, -1]] ∧
      balance_stoichiometry [[1, 1, -2], [1, -1, 0], [0, 1, -1]] [true, true, false] =
        .ok [1, 1, 1]) := by
  refine ⟨⟨?_, ?_⟩, ?_, ?_⟩
  · simp [stoichiometric_matrix, collectKeys, signedCount, atomCount, List.find?]
  · norm_num [balance_stoichiometry, nullspaceBasis, rref, gaussPivots, splitPivot,
      backSub, reduceRow, elimRow, basisVector, freeCols, pivotCols, numCols, rationalize,
      signNormalize, firstKnown, intScale, denLcm, intList, intGcd, scaleRow, addRow, getEntry,
      List.find?, List.range_succ]
  · simp [stoichiometric_matrix, collectKeys, signedCount, atomCount, List.find?]
  · norm_num [balance_stoichiometry, nullspaceBasis, rref, gaussPivots, splitPivot,
      backSub, reduceRow, elimRow, basisVector, freeCols, pivotCols, numCols, rationalize,
      signNormalize, firstKnown, intScale, denLcm, intList, intGcd, scaleRow, addRow, getEntry,
      List.find?, List.range_succ]

/-- Claim C4: whenever the species list and flag list have different lengths,
or all flags are `true`, or all flags are `false`, `stoichiometric_matrix`
returns `InvalidInputError` instead of a matrix. -/
theorem C4_invalid_input (atomss : List Species) (statuses : List Bool)
    (h : atomss.length ≠ statuses.length ∨ statuses.all (fun b => b) = true ∨
      statuses.all (fun b => !b) = true) :
    stoichiometric_matrix atomss statuses = .error .invalidInput := by
  unfold stoichiometric_matrix
  rw [if_neg]
  intro hcond
  obtain ⟨h1, _, h3, h4⟩ := hcond
  rcases h with h | h | h
  · exact h h1
  · exact h3 h
  · exact h4 h

theorem C4_invalid_input_witness :
    stoichiometric_matrix [[("H", 1)], [("O", 1)]] [true, true] = .error .invalidInput :=
  C4_invalid_input [[("H", 1)], [("O", 1)]] [true, true] (Or.inr (Or.inl rfl))

theorem getD_map_lt (keys : List String) (f : String → List ℚ) (i : ℕ)
    (hi : i < keys.length) : (keys.map f).getD i [] = f (keys.getD i "") := by
  rw [List.getD_eq_getElem _ _ (by simpa using hi), List.getElem_map,
    List.getD_eq_getElem _ _ hi]

theorem getEntry_row (atomss : List Species) (statuses : List Bool) (k : String) (j : ℕ)
    (hj : j < atomss.length) (hlen : atomss.length = statuses.length) :
    getEntry ((atomss.zip statuses).map (fun p => signedCount p.1 p.2 k)) j =
      signedCount (atomss.getD j []) (statuses.getD j false) k := by
  have hj' : j < (atomss.zip statuses).length := by
    rw [List.length_zip, ← hlen, Nat.min_self]
    exact hj
  rw [getEntry, List.getD_eq_getElem _ _ (by simpa using hj'), List.getElem_map,
    List.getElem_zip]
  rw [List.getD_eq_getElem _ _ hj, List.getD_eq_getElem _ _ (by rw [← hlen]; exact hj)]

/-- Claim C3: for every accepted input, the matrix built by
`stoichiometric_matrix` has one row per distinct element/charge key in
first-seen order, one column per species in input order, and the cell for
(key, species) is `+count` when the species is known, `-count` when unknown
and `0` when the key is absent (via `atomCount`); in particular the
`MgO / Mg / O2` example yields `[[1,-1,0],[1,0,-2]]`. -/
theorem C3_matrix_layout (atomss : List Species) (statuses : List Bool) (M : List (List ℚ))
    (hM : stoichiometric_matrix atomss statuses = .ok M) :
    (M.length = (collectKeys atomss).length ∧
     (∀ i, i < M.length → (M.getD i []).length = atomss.length) ∧
     (∀ i j, i < M.length → j < atomss.length →
       getEntry (M.getD i []) j =
         if statuses.getD j false = true
         then atomCount (atomss.getD j []) ((collectKeys atomss).getD i "")
         else -atomCount (atomss.getD j []) ((collectKeys atomss).getD i ""))) ∧
    stoichiometric_matrix [[("Mg", 1), ("O", 1)], [("Mg", 1)], [("O", 2)]]
      [true, false, false] = .ok [[1, -1, 0], [1, 0, -2]] := by
  obtain ⟨hlen, _, _, _, hMeq⟩ := stoich_ok_elim atomss statuses M hM
  refine ⟨⟨?_, ?_, ?_⟩, ?_⟩
  · rw [hMeq, List.length_map]
  · intro i hi
    rw [hMeq] at hi ⊢
    rw [List.length_map] at hi
    rw [getD_map_lt _ _ i hi, List.length_map, List.length_zip, ← hlen, Nat.min_self]
  · intro i j hi hj
    rw [hMeq] at hi ⊢
    rw [List.length_map] at hi
    rw [getD_map_lt _ _ i hi, getEntry_row atomss statuses _ j hj hlen]
    unfold signedCount
    rfl
  · simp [stoichiometric_matrix, collectKeys, signedCount, atomCount, List.find?]

theorem C3_matrix_layout_witness :
    getEntry (([[1, -1, 0], [1, 0, -2]] : List (List ℚ)).getD 0 []) 1 =
      -atomCount [("Mg", 1)] "Mg" := by
  have h := C3_matrix_layout [[("Mg", 1), ("O", 1)], [("Mg", 1)], [("O", 2)]]
    [true, false, false] [[1, -1, 0], [1, 0, -2]]
    (by simp [stoichiometric_matrix, collectKeys, signedCount, atomCount, List.find?])
  have h2 := h.1.2.2 0 1 (by simp) (by simp)
  simpa [collectKeys] using h2

/-- Claim C5 counterexample: the valid input `A -> AB2 + B` (accepted by the
builder) is balanced by `balance_stoichiometry` without error, and its
first known-species coefficient is positive as section 4.2 requires, yet
the returned vector `[1, 1, -2]` contains a negative coefficient, refuting
the claim that every returned coefficient is strictly positive. -/
theorem C5_counterexample :
    stoichiometric_matrix [[("A", 1)], [("A", 1), ("B", 2)], [("B", 1)]]
      [true, false, false] = .ok [[1, -1, 0], [0, -2, -1]] ∧
    balance_stoichiometry [[1, -1, 0], [0, -2, -1]] [true, false, false] = .ok [1, 1, -2] ∧
    ¬ (∀ q ∈ ([1, 1, -2] : List ℚ), 0 < q) := by
  refine ⟨?_, ?_, ?_⟩
  · simp [stoichiometric_matrix, collectKeys, signedCount, atomCount, List.find?]
  · norm_num [balance_stoichiometry, nullspaceBasis, rref, gaussPivots, splitPivot,
      backSub, reduceRow, elimRow, basisVector, freeCols, pivotCols, numCols, rationalize,
      signNormalize, firstKnown, intScale, denLcm, intList, intGcd, scaleRow, addRow, getEntry,
      List.find?, List.range_succ]
  · intro h
    have := h (-2) (by simp)
    linarith

theorem basisVector_has_nonzero (n : ℕ) (piv : List (ℕ × List ℚ)) (f : ℕ) (hfn : f < n) :
    ∃ q ∈ basisVector n piv f, q ≠ 0 := by
  refine ⟨getEntry (basisVector n piv f) f, ?_, ?_⟩
  · apply getEntry_mem
    rw [basisVector_length]
    exact hfn
  · rw [basisVector_at_free n piv f hfn]
    exact one_ne_zero

theorem balance_ok_ne_nil (M : List (List ℚ)) (statuses : List Bool) (v : List ℚ)
    (hv : balance_stoichiometry M statuses = .ok v) : M ≠ [] := by
  intro hnil
  rw [hnil] at hv
  exact absurd ((show balance_stoichiometry ([] : List (List ℚ)) statuses =
    .error .infeasible from rfl).symm.trans hv) (by simp)

theorem stoich_firstKnown_lt (atomss : List Species) (statuses : List Bool)
    (M : List (List ℚ)) (hM : stoichiometric_matrix atomss statuses = .ok M)
    (hMne : M ≠ []) : firstKnown statuses < numCols M := by
  obtain ⟨hlen, _, _, h4, _⟩ := stoich_ok_elim atomss statuses M hM
  have h4f : statuses.all (fun b => !b) = false := by
    cases hcase : statuses.all (fun b => !b)
    · rfl
    · exact absurd hcase h4
  rw [stoich_numCols atomss statuses M hM hMne, hlen]
  exact firstKnown_lt statuses h4f

theorem balance_pos_of_pos_null (M : List (List ℚ)) (statuses : List Bool) (v : List ℚ)
    (hrows : ∀ r ∈ M, r.length = numCols M)
    (hk : firstKnown statuses < numCols M)
    (hv : balance_stoichiometry M statuses = .ok v)
    (w : List ℚ) (hw_len : w.length = numCols M)
    (hw_pos : ∀ q ∈ w, 0 < q)
    (hw_null : ∀ r ∈ M, zipDot r w = 0) :
    ∀ q ∈ v, 0 < q := by
  obtain ⟨u, hbasis, hv_eq⟩ := balance_ok_elim M statuses v hv
  obtain ⟨f, hf_eq, hu_eq⟩ := basis_singleton_elim (numCols M) M u hbasis
  have hprops := rref_props (numCols M) M hrows
  have hw_rref : ∀ cp ∈ rref (numCols M) M, dotTo (numCols M) cp.2 w = 0 := by
    apply backSub_complete
    apply gaussPivots_complete
    intro r hr
    rw [← zipDot_eq_dotTo (numCols M) r w (le_of_eq hw_len)]
    exact hw_null r hr
  have hw_span := rref_null_one_free (numCols M) (rref (numCols M) M) hprops f hf_eq w hw_rref
  have hw_colinear : w = scaleRow (getEntry w f) u := by
    rw [hu_eq]
    apply eq_of_getEntry_eq
    · rw [hw_len, scaleRow_length, basisVector_length]
    · intro j hj
      rw [hw_len] at hj
      rw [getEntry_scaleRow]
      exact hw_span j hj
  have hf_mem : f ∈ freeCols (numCols M) (rref (numCols M) M) := by rw [hf_eq]; simp
  have hfn : f < numCols M := ((mem_freeCols _ _ f).mp hf_mem).1
  have hwf_pos : 0 < getEntry w f := hw_pos _ (getEntry_mem w f (by rw [hw_len]; exact hfn))
  have hu_len : u.length = numCols M := by rw [hu_eq, basisVector_length]
  have hSN_pos : ∀ q ∈ signNormalize (firstKnown statuses) u, 0 < q :=
    signNormalize_pos (firstKnown statuses) u w (getEntry w f) (ne_of_gt hwf_pos)
      hw_colinear hw_pos (by rw [hu_len]; exact hk)
  rw [hv_eq]
  exact rationalize_pos _ hSN_pos

/-- Claim C5 (amended): strict positivity of every returned coefficient fails
in general (see the counterexample); what the sign normalization of spec
section 4.2 (first known-species coefficient positive) guarantees is that
the coefficient at the first known-species position is never negative, and
that all returned coefficients are strictly positive whenever the
null-space ray of the conservation matrix contains a strictly positive
vector, which is the case for every genuine chemical reaction and in
particular for every canonical scenario of section 8. -/
theorem C5_positivity (atomss : List Species) (statuses : List Bool)
    (M : List (List ℚ)) (v : List ℚ)
    (hM : stoichiometric_matrix atomss statuses = .ok M)
    (hv : balance_stoichiometry M statuses = .ok v) :
    0 ≤ getEntry v (firstKnown statuses) ∧
    ((∃ w, w.length = numCols M ∧ (∀ q ∈ w, 0 < q) ∧ ∀ r ∈ M, zipDot r w = 0) →
      ∀ q ∈ v, 0 < q) := by
  obtain ⟨u, hbasis, hv_eq⟩ := balance_ok_elim M statuses v hv
  constructor
  · rw [hv_eq, getEntry_rationalize]
    exact mul_nonneg (le_of_lt (intScale_pos _)) (signNormalize_entry_nonneg _ _)
  · rintro ⟨w, hw_len, hw_pos, hw_null⟩
    exact balance_pos_of_pos_null M statuses v
      (stoich_rows_numCols atomss statuses M hM)
      (stoich_firstKnown_lt atomss statuses M hM (balance_ok_ne_nil M statuses v hv))
      hv w hw_len hw_pos hw_null

theorem C5_positivity_witness :
    0 ≤ getEntry [2, 2, 1] (firstKnown [true, false, false]) ∧
    ((∃ w, w.length = numCols [[1, -1, 0], [1, 0, -2]] ∧ (∀ q ∈ w, 0 < q) ∧
        ∀ r ∈ ([[1, -1, 0], [1, 0, -2]] : List (List ℚ)), zipDot r w = 0) →
      ∀ q ∈ ([2, 2, 1] : List ℚ), 0 < q) :=
  C5_positivity [[("Mg", 1), ("O", 1)], [("Mg", 1)], [("O", 2)]] [true, false, false]
    [[1, -1, 0], [1, 0, -2]] [2, 2, 1]
    (by simp [stoichiometric_matrix, collectKeys, signedCount, atomCount, List.find?])
    (by norm_num [balance_stoichiometry, nullspaceBasis, rref, gaussPivots, splitPivot,
      backSub, reduceRow, elimRow, basisVector, freeCols, pivotCols, numCols, rationalize,
      signNormalize, firstKnown, intScale, denLcm, intList, intGcd, scaleRow, addRow, getEntry,
      List.find?, List.range_succ])

/-- Claim C6: whenever the balancer returns a coefficient vector, that vector
is the unique minimal integer representative of the one-dimensional
null-space ray: its coefficients are integers with no common divisor greater
than `1`, rationalizing any positive scaling of it returns the vector
unchanged, and any integer vector with coprime entries obtained from it by a
positive scaling is the vector itself. -/
theorem C6_minimal_representative (M : List (List ℚ)) (statuses : List Bool) (v : List ℚ)
    (hv : balance_stoichiometry M statuses = .ok v) :
    isIntVec v ∧ vecGcd v = 1 ∧
    (∀ k : ℚ, 0 < k → rationalize (scaleRow k v) = v) ∧
    (∀ (w : List ℚ) (k : ℚ), 0 < k → w = scaleRow k v → isIntVec w → vecGcd w = 1 →
      w = v) := by
  obtain ⟨u, hbasis, hv_eq⟩ := balance_ok_elim M statuses v hv
  have hu_mem : u ∈ nullspaceBasis (numCols M) M := by rw [hbasis]; simp
  have hex_u : ∃ q ∈ u, q ≠ 0 := by
    obtain ⟨f, hf, rfl⟩ := List.mem_map.mp hu_mem
    exact basisVector_has_nonzero _ _ f ((mem_freeCols _ _ f).mp hf).1
  have hex : ∃ q ∈ signNormalize (firstKnown statuses) u, q ≠ 0 :=
    signNormalize_has_nonzero _ u hex_u
  have hint_v : isIntVec v := by rw [hv_eq]; exact rationalize_isInt _ hex
  have hgcd_v : vecGcd v = 1 := by rw [hv_eq]; exact rationalize_vecGcd _ hex
  have hex_v : ∃ q ∈ v, q ≠ 0 := vecGcd_has_nonzero v hgcd_v
  refine ⟨hint_v, hgcd_v, ?_, ?_⟩
  · intro k hk
    have hk_ne : k ≠ 0 := ne_of_gt hk
    have hex_kv : ∃ q ∈ scaleRow k v, q ≠ 0 := by
      obtain ⟨q, hq, hqne⟩ := hex_v
      exact ⟨k * q, List.mem_map_of_mem _ hq, mul_ne_zero hk_ne hqne⟩
    have hw_eq : rationalize (scaleRow k v) = scaleRow (intScale (scaleRow k v) * k) v := by
      rw [show rationalize (scaleRow k v) = scaleRow (intScale (scaleRow k v)) (scaleRow k v)
        from rfl, scaleRow_scaleRow]
    refine (unique_rep_pos v (rationalize (scaleRow k v)) (intScale (scaleRow k v) * k)
      (mul_pos (intScale_pos _) hk) hw_eq hint_v (rationalize_isInt _ hex_kv) hgcd_v
      (rationalize_vecGcd _ hex_kv)).symm
  · intro w k hk hw hint_w hgcd_w
    exact (unique_rep_pos v w k hk hw hint_v hint_w hgcd_v hgcd_w).symm

theorem C6_minimal_representative_witness :
    balance_stoichiometry [[1, 0, -2], [0, 2, -3]] [true, true, false] = .ok [4, 3, 2] ∧
    rationalize (scaleRow 2 [4, 3, 2]) = [4, 3, 2] :=
  ⟨by norm_num [balance_stoichiometry, nullspaceBasis, rref, gaussPivots, splitPivot,
      backSub, reduceRow, elimRow, basisVector, freeCols, pivotCols, numCols, rationalize,
      signNormalize, firstKnown, intScale, denLcm, intList, intGcd, scaleRow, addRow, getEntry,
      List.find?, List.range_succ],
    (C6_minimal_representative [[1, 0, -2], [0, 2, -3]] [true, true, false] [4, 3, 2]
      (by norm_num [balance_stoichiometry, nullspaceBasis, rref, gaussPivots, splitPivot,
      backSub, reduceRow, elimRow, basisVector, freeCols, pivotCols, numCols, rationalize,
      signNormalize, firstKnown, intScale, denLcm, intList, intGcd, scaleRow, addRow, getEntry,
      List.find?, List.range_succ])).2.2.1 2 (by norm_num)⟩

/-- Claim C7: for every accepted input whose conservation matrix has no
non-trivial null space (only the zero coefficient vector satisfies all
conservation rows), the solver raises `InfeasibleBalanceError` and returns
no coefficients. -/
theorem C7_infeasible (atomss : List Species) (statuses : List Bool) (M : List (List ℚ))
    (hM : stoichiometric_matrix atomss statuses = .ok M)
    (htriv : onlyTrivialNull M (numCols M)) :
    balance_stoichiometry M statuses = .error .infeasible := by
  rw [balance_infeasible_iff]
  cases hb : nullspaceBasis (numCols M) M with
  | nil => rfl
  | cons b t =>
    exfalso
    have hb_mem : b ∈ nullspaceBasis (numCols M) M := by rw [hb]; simp
    have hrows : ∀ r ∈ M, r.length = numCols M := stoich_rows_numCols atomss statuses M hM
    have hlen_b : b.length = numCols M := nullspaceBasis_mem_len _ M b hb_mem
    have hzip : ∀ r ∈ M, zipDot r b = 0 := fun r hr => by
      rw [zipDot_eq_dotTo (numCols M) r b (le_of_eq hlen_b)]
      exact nullspaceBasis_sound _ M hrows b hb_mem r hr
    have hall0 := htriv b hlen_b hzip
    obtain ⟨f, hf, rfl⟩ := List.mem_map.mp hb_mem
    have hfn : f < numCols M := ((mem_freeCols _ _ f).mp hf).1
    obtain ⟨q, hq_mem, hq_ne⟩ := basisVector_has_nonzero (numCols M) (rref (numCols M) M) f hfn
    exact hq_ne (hall0 q hq_mem)

theorem C7_infeasible_witness :
    balance_stoichiometry [[1, 0], [0, -1]] [true, false] = .error .infeasible := by
  apply C7_infeasible [[("A", 1)], [("B", 1)]] [true, false] [[1, 0], [0, -1]]
  · simp [stoichiometric_matrix, collectKeys, signedCount, atomCount, List.find?]
  · intro x hlen hnull q hq
    have hlen2 : x.length = 2 := hlen
    obtain ⟨a, b, rfl⟩ := List.length_eq_two.mp hlen2
    have h1 := hnull [1, 0] (by simp)
    have h2 := hnull [0, -1] (by simp)
    simp [zipDot] at h1 h2
    rcases List.mem_cons.mp hq with hq1 | hq1
    · rw [hq1, h1]
    · rw [List.mem_singleton.mp hq1, h2]

/-- Claim C8: for every accepted input whose conservation matrix admits two
linearly independent null vectors (null-space dimension greater than one),
the solver raises `UnderdeterminedSystemError` rather than choosing an
anchor heuristically and returning coefficients. -/
theorem C8_underdetermined (atomss : List Species) (statuses : List Bool) (M : List (List ℚ))
    (hM : stoichiometric_matrix atomss statuses = .ok M)
    (hind : hasTwoIndependentNull M (numCols M)) :
    balance_stoichiometry M statuses = .error .underdetermined := by
  rw [balance_underdet_iff]
  by_contra hlt
  push_neg at hlt
  obtain ⟨x, y, hxlen, hylen, hxnull, hynull, hindep⟩ := hind
  have hrows : ∀ r ∈ M, r.length = numCols M := stoich_rows_numCols atomss statuses M hM
  have hprops := rref_props (numCols M) M hrows
  have hx_rref : ∀ cp ∈ rref (numCols M) M, dotTo (numCols M) cp.2 x = 0 := by
    apply backSub_complete
    apply gaussPivots_complete
    intro r hr
    rw [← zipDot_eq_dotTo (numCols M) r x (le_of_eq hxlen)]
    exact hxnull r hr
  have hy_rref : ∀ cp ∈ rref (numCols M) M, dotTo (numCols M) cp.2 y = 0 := by
    apply backSub_complete
    apply gaussPivots_complete
    intro r hr
    rw [← zipDot_eq_dotTo (numCols M) r y (le_of_eq hylen)]
    exact hynull r hr
  have hcontr : (∀ j, j < numCols M → getEntry x j = 0) → False := by
    intro hx0
    have hcombo : addRow (scaleRow 1 x) (scaleRow 0 y) = List.replicate (numCols M) 0 := by
      apply eq_of_getEntry_eq
      · rw [addRow_length, scaleRow_length, scaleRow_length, hxlen, hylen,
          List.length_replicate, Nat.max_self]
      · intro j hj
        rw [addRow_length, scaleRow_length, scaleRow_length, hxlen, hylen, Nat.max_self] at hj
        rw [getEntry_addRow, getEntry_scaleRow, getEntry_scaleRow, getEntry_replicate,
          hx0 j hj]
        ring
    exact one_ne_zero (hindep 1 0 hcombo).1
  cases hb : nullspaceBasis (numCols M) M with
  | nil =>
    have hfree : freeCols (numCols M) (rref (numCols M) M) = [] := List.map_eq_nil.mp hb
    exact hcontr (rref_null_rank_full _ _ hprops hfree x hx_rref)
  | cons b t =>
    cases t with
    | cons b2 t2 => rw [hb] at hlt; simp at hlt; omega
    | nil =>
      have hsingle : ∃ f0, freeCols (numCols M) (rref (numCols M) M) = [f0] := by
        cases hfc : freeCols (numCols M) (rref (numCols M) M) with
        | nil =>
          exfalso
          have hnil : nullspaceBasis (numCols M) M = [] := by
            unfold nullspaceBasis
            rw [hfc]
            rfl
          rw [hb] at hnil
          exact absurd hnil (by simp)
        | cons f0 t2 =>
          cases t2 with
          | nil => exact ⟨f0, rfl⟩
          | cons f1 t3 =>
            exfalso
            have hcons : nullspaceBasis (numCols M) M =
                basisVector (numCols M) (rref (numCols M) M) f0 ::
                  basisVector (numCols M) (rref (numCols M) M) f1 ::
                    t3.map (basisVector (numCols M) (rref (numCols M) M)) := by
              unfold nullspaceBasis
              rw [hfc]
              rfl
            rw [hb] at hcons
            exact absurd hcons (by simp)
      obtain ⟨f0, hf0⟩ := hsingle
      have hx_span := rref_null_one_free _ _ hprops f0 hf0 x hx_rref
      have hy_span := rref_null_one_free _ _ hprops f0 hf0 y hy_rref
      have hcombo : addRow (scaleRow (getEntry y f0) x) (scaleRow (-(getEntry x f0)) y) =
          List.replicate (numCols M) 0 := by
        apply eq_of_getEntry_eq
        · rw [addRow_length, scaleRow_length, scaleRow_length, hxlen, hylen,
            List.length_replicate, Nat.max_self]
        · intro j hj
          rw [addRow_length, scaleRow_length, scaleRow_length, hxlen, hylen, Nat.max_self] at hj
          rw [getEntry_addRow, getEntry_scaleRow, getEntry_scaleRow, getEntry_replicate,
            hx_span j hj, hy_span j hj]
          ring
      obtain ⟨hy0, hx0neg⟩ := hindep _ _ hcombo
      have hx0 : getEntry x f0 = 0 := neg_eq_zero.mp hx0neg
      exact hcontr (fun j hj => by rw [hx_span j hj, hx0, zero_mul])

theorem C8_underdetermined_witness :
    balance_stoichiometry [[1, -1, -1]] [true, false, false] = .error .underdetermined := by
  apply C8_underdetermined [[("A", 1)], [("A", 1)], [("A", 1)]] [true, false, false]
    [[1, -1, -1]]
  · simp [stoichiometric_matrix, collectKeys, signedCount, atomCount, List.find?]
  · refine ⟨[1, 1, 0], [1, 0, 1], rfl, rfl, ?_, ?_, ?_⟩
    · intro r hr
      rcases List.mem_singleton.mp hr with rfl
      simp [zipDot]
    · intro r hr
      rcases List.mem_singleton.mp hr with rfl
      simp [zipDot]
    · intro a b h
      simp [addRow, scaleRow, List.replicate] at h
      obtain ⟨h1, h2, h3⟩ := h
      exact ⟨h2, h3⟩

theorem balance_ok_canonical (M : List (List ℚ)) (statuses : List Bool) (v : List ℚ)
    (hv : balance_stoichiometry M statuses = .ok v) :
    isIntVec v ∧ vecGcd v = 1 ∧ v.length = numCols M ∧ v ≠ [] := by
  obtain ⟨u, hbasis, hv_eq⟩ := balance_ok_elim M statuses v hv
  have hu_mem : u ∈ nullspaceBasis (numCols M) M := by rw [hbasis]; simp
  obtain ⟨f, hf, rfl⟩ := List.mem_map.mp hu_mem
  have hfn := ((mem_freeCols _ _ f).mp hf).1
  have hex0 := basisVector_has_nonzero (numCols M) (rref (numCols M) M) f hfn
  have hex : ∃ q ∈ signNormalize (firstKnown statuses)
      (basisVector (numCols M) (rref (numCols M) M) f), q ≠ 0 :=
    signNormalize_has_nonzero _ _ hex0
  have hlen : v.length = numCols M := by
    rw [hv_eq, show (rationalize (signNormalize (firstKnown statuses)
        (basisVector (numCols M) (rref (numCols M) M) f))).length =
      (signNormalize (firstKnown statuses)
        (basisVector (numCols M) (rref (numCols M) M) f)).length from scaleRow_length _ _,
      signNormalize_length, basisVector_length]
  refine ⟨by rw [hv_eq]; exact rationalize_isInt _ hex,
    by rw [hv_eq]; exact rationalize_vecGcd _ hex, hlen, ?_⟩
  intro hnil
  rw [hnil] at hlen
  simp at hlen
  omega

theorem dropLast_append_getLastD (l : List ℚ) (h : l ≠ []) :
    l.dropLast ++ [l.getLast?.getD 0] = l := by
  rw [List.getLast?_eq_getLast l h]
  exact List.dropLast_append_getLast h

theorem sfr_ok_elim (atoms : Species) (c : ℚ) (rc : List ℚ) (ra : List Species)
    (h : standard_formation_reaction atoms = .ok (c, rc, ra)) :
    ∃ M coeffs,
      stoichiometric_matrix ((collectKeys [atoms]).map standardForm ++ [atoms])
        (((collectKeys [atoms]).map standardForm).map (fun _ => true) ++ [false]) = .ok M ∧
      balance_stoichiometry M
        (((collectKeys [atoms]).map standardForm).map (fun _ => true) ++ [false]) =
          .ok coeffs ∧
      c = coeffs.getLast?.getD 0 ∧ rc = coeffs.dropLast ∧
      ra = (collectKeys [atoms]).map standardForm := by
  unfold standard_formation_reaction at h
  cases h1 : stoichiometric_matrix ((collectKeys [atoms]).map standardForm ++ [atoms])
      (((collectKeys [atoms]).map standardForm).map (fun _ => true) ++ [false]) with
  | error e => rw [h1] at h; exact absurd h (by simp)
  | ok M =>
    rw [h1] at h
    dsimp only at h
    cases h2 : balance_stoichiometry M
        (((collectKeys [atoms]).map standardForm).map (fun _ => true) ++ [false]) with
    | error e => rw [h2] at h; exact absurd h (by simp)
    | ok coeffs =>
      rw [h2] at h
      dsimp only at h
      simp only [Except.ok.injEq, Prod.mk.injEq] at h
      obtain ⟨hc, hrc, hra⟩ := h
      exact ⟨M, coeffs, rfl, h2, hc.symm, hrc.symm, hra.symm⟩

theorem sfr_propane : standard_formation_reaction [("C", 3), ("H", 8)] =
    .ok (1, [3, 4], [[("C", 1)], [("H", 2)]]) := by
  have hkeys : collectKeys [[("C", 3), ("H", 8)]] = ["C", "H"] := by
    simp [collectKeys]
  have hra2 : (["C", "H"]).map standardForm = [[("C", 1)], [("H", 2)]] := by
    simp [standardForm, diatomics]
  unfold standard_formation_reaction
  rw [hkeys, hra2]
  have hst : stoichiometric_matrix ([[("C", 1)], [("H", 2)]] ++ [[("C", 3), ("H", 8)]])
      ([[("C", 1)], [("H", 2)]].map (fun _ => true) ++ [false]) =
      .ok [[1, 0, -3], [0, 2, -8]] := by
    simp [stoichiometric_matrix, collectKeys, signedCount, atomCount, List.find?]
  have hbal : balance_stoichiometry [[1, 0, -3], [0, 2, -8]]
      (([[("C", 1)], [("H", 2)]] : List Species).map (fun _ => true) ++ [false]) =
      .ok [3, 4, 1] := by
    norm_num [balance_stoichiometry, nullspaceBasis, rref, gaussPivots, splitPivot,
      backSub, reduceRow, elimRow, basisVector, freeCols, pivotCols, numCols, rationalize,
      signNormalize, firstKnown, intScale, denLcm, intList, intGcd, scaleRow, addRow, getEntry,
      List.find?, List.range_succ]
  split
  · rename_i e heq
    exact absurd (hst.symm.trans heq) (by simp)
  · rename_i M heq
    have hM : Except.ok [[1, 0, -3], [0, 2, -8]] = Except.ok M := hst.symm.trans heq
    simp only [Except.ok.injEq] at hM
    subst hM
    split
    · rename_i e heq2
      exact absurd (hbal.symm.trans heq2) (by simp)
    · rename_i coeffs heq2
      have hC : Except.ok [3, 4, 1] = Except.ok coeffs := hbal.symm.trans heq2
      simp only [Except.ok.injEq] at hC
      subst hC
      simp

/-- Claim C10: for every product composition accepted by
`standard_formation_reaction`, the returned reactant compositions are the
standard elemental forms (`{X: 2}` for the diatomic elements H, N, O, F,
Cl, Br and `{X: 1}` otherwise, one per distinct element of the product in
first-seen order), and the returned coefficients (reactants plus product)
are integers that balance the formation reaction exactly; in particular
`{C: 3, H: 8}` yields reactant coefficients `[3, 4]` against reactants
`[{C: 1}, {H: 2}]` (`3 C + 4 H2 -> C3H8`). -/
theorem C10_formation (atoms : Species) (c : ℚ) (rc : List ℚ) (ra : List Species)
    (h : standard_formation_reaction atoms = .ok (c, rc, ra)) :
    (ra = (collectKeys [atoms]).map standardForm ∧
     isIntVec (rc ++ [c]) ∧
     ∀ M, stoichiometric_matrix (ra ++ [atoms]) (ra.map (fun _ => true) ++ [false]) = .ok M →
       ∀ r ∈ M, zipDot r (rc ++ [c]) = 0) ∧
    standard_formation_reaction [("C", 3), ("H", 8)] =
      .ok (1, [3, 4], [[("C", 1)], [("H", 2)]]) := by
  obtain ⟨M0, coeffs, h1, h2, hc, hrc, hra⟩ := sfr_ok_elim atoms c rc ra h
  obtain ⟨hint, _, _, hne⟩ := balance_ok_canonical M0
    (((collectKeys [atoms]).map standardForm).map (fun _ => true) ++ [false]) coeffs h2
  have hfull : rc ++ [c] = coeffs := by
    rw [hc, hrc]
    exact dropLast_append_getLastD coeffs hne
  refine ⟨⟨hra, ?_, ?_⟩, ?_⟩
  · rw [hfull]
    exact hint
  · intro M hM r hr
    rw [hra] at hM
    have hMM0 : M = M0 := by
      have := hM.symm.trans h1
      simpa using this
    rw [hMM0] at hr
    rw [hfull]
    exact conservation_zipDot _ _ M0 coeffs h1 h2 r hr
  · exact sfr_propane

theorem C10_formation_witness : isIntVec ([3, 4] ++ [(1 : ℚ)]) :=
  ((C10_formation [("C", 3), ("H", 8)] 1 [3, 4] [[("C", 1)], [("H", 2)]] sfr_propane).1).2.1

theorem map_range_getD {α : Type} {β : Type} (l : List α) (d : α) (G : α → β) :
    (List.range l.length).map (fun j => G (l.getD j d)) = l.map G := by
  apply List.ext_getElem (by simp)
  intro i h1 h2
  rw [List.getElem_map, List.getElem_map, List.getElem_range,
    List.getD_eq_getElem l d (by simpa using h2)]

theorem map_range_getD_self {α : Type} (l : List α) (d : α) :
    (List.range l.length).map (fun i => l.getD i d) = l := by
  have h := map_range_getD l d id
  rw [List.map_id] at h
  exact h

theorem applyPerm_perm {α : Type} (d : α) (p : List ℕ) (l : List α)
    (hp : p.Perm (List.range l.length)) : (applyPerm d p l).Perm l := by
  unfold applyPerm
  have h1 : (p.map (fun i => l.getD i d)).Perm
      ((List.range l.length).map (fun i => l.getD i d)) := hp.map _
  rw [map_range_getD_self l d] at h1
  exact h1

theorem applyPerm_length {α : Type} (d : α) (p : List ℕ) (l : List α) :
    (applyPerm d p l).length = p.length := by
  simp [applyPerm]

theorem getD_applyPerm {α : Type} (d : α) (p : List ℕ) (l : List α) (j : ℕ)
    (hj : j < p.length) :
    (applyPerm d p l).getD j d = l.getD (p.getD j 0) d := by
  unfold applyPerm
  rw [List.getD_eq_getElem _ _ (by simpa using hj), List.getElem_map,
    List.getD_eq_getElem p 0 hj]

theorem getEntry_applyPerm (p : List ℕ) (l : List ℚ) (j : ℕ) (hj : j < p.length) :
    getEntry (applyPerm 0 p l) j = getEntry l (p.getD j 0) :=
  getD_applyPerm 0 p l j hj

theorem mem_foldl_keys (s : Species) : ∀ (acc : List String) (k : String),
    (k ∈ s.foldl (fun acc2 kv => if kv.1 ∈ acc2 then acc2 else acc2 ++ [kv.1]) acc ↔
      k ∈ acc ∨ ∃ c, (k, c) ∈ s) := by
  induction s with
  | nil => intro acc k; simp
  | cons kv t ih =>
    intro acc k
    rw [List.foldl_cons]
    rw [ih _ k]
    by_cases hmem : kv.1 ∈ acc
    · rw [if_pos hmem]
      constructor
      · intro h
        rcases h with h | ⟨c, hc⟩
        · exact Or.inl h
        · exact Or.inr ⟨c, by simp [hc]⟩
      · intro h
        rcases h with h | ⟨c, hc⟩
        · exact Or.inl h
        · rcases List.mem_cons.mp hc with h1 | h1
          · left
            have : k = kv.1 := by rw [Prod.ext_iff] at h1; exact h1.1
            rw [this]
            exact hmem
          · exact Or.inr ⟨c, h1⟩
    · rw [if_neg hmem]
      constructor
      · intro h
        rcases h with h | ⟨c, hc⟩
        · rcases List.mem_append.mp h with h1 | h1
          · exact Or.inl h1
          · right
            refine ⟨kv.2, ?_⟩
            have : k = kv.1 := by simpa using h1
            rw [this]
            simp
        · exact Or.inr ⟨c, by simp [hc]⟩
      · intro h
        rcases h with h | ⟨c, hc⟩
        · exact Or.inl (List.mem_append.mpr (Or.inl h))
        · rcases List.mem_cons.mp hc with h1 | h1
          · left
            apply List.mem_append.mpr
            right
            have : k = kv.1 := by rw [Prod.ext_iff] at h1; exact h1.1
            simp [this]
          · exact Or.inr ⟨c, h1⟩

theorem mem_collectKeys_aux : ∀ (atomss : List Species) (acc : List String) (k : String),
    (k ∈ atomss.foldl
        (fun acc s => s.foldl (fun acc2 kv => if kv.1 ∈ acc2 then acc2 else acc2 ++ [kv.1]) acc)
        acc ↔
      k ∈ acc ∨ ∃ s ∈ atomss, ∃ c, (k, c) ∈ s) := by
  intro atomss
  induction atomss with
  | nil => intro acc k; simp
  | cons s t ih =>
    intro acc k
    rw [List.foldl_cons, ih _ k, mem_foldl_keys s acc k]
    constructor
    · intro h
      rcases h with (h | ⟨c, hc⟩) | ⟨s', hs', c, hc⟩
      · exact Or.inl h
      · exact Or.inr ⟨s, by simp, c, hc⟩
      · exact Or.inr ⟨s', by simp [hs'], c, hc⟩
    · intro h
      rcases h with h | ⟨s', hs', c, hc⟩
      · exact Or.inl (Or.inl h)
      · rcases List.mem_cons.mp hs' with h1 | h1
        · exact Or.inl (Or.inr ⟨c, by rw [← h1]; exact hc⟩)
        · exact Or.inr ⟨s', h1, c, hc⟩

theorem mem_collectKeys (atomss : List Species) (k : String) :
    k ∈ collectKeys atomss ↔ ∃ s ∈ atomss, ∃ c, (k, c) ∈ s := by
  unfold collectKeys
  rw [mem_collectKeys_aux atomss [] k]
  simp

theorem intGcd_perm (zs ws : List ℤ) (h : zs.Perm ws) : intGcd zs = intGcd ws := by
  induction h with
  | nil => rfl
  | cons x h ih => rw [intGcd_cons, intGcd_cons, ih]
  | swap x y l =>
    rw [intGcd_cons, intGcd_cons, intGcd_cons, intGcd_cons, ← Nat.gcd_assoc,
      Nat.gcd_comm y.natAbs x.natAbs, Nat.gcd_assoc]
  | trans h1 h2 ih1 ih2 => rw [ih1, ih2]

theorem perm_row_dot (p : List ℕ) (atomss : List Species) (statuses : List Bool)
    (v : List ℚ) (k : String) (n : ℕ)
    (hn : n = atomss.length)
    (hlen : atomss.length = statuses.length)
    (hp : p.Perm (List.range n)) :
    dotTo n (((applyPerm [] p atomss).zip (applyPerm false p statuses)).map
        (fun pr => signedCount pr.1 pr.2 k)) (applyPerm 0 p v) =
    dotTo n ((atomss.zip statuses).map (fun pr => signedCount pr.1 pr.2 k)) v := by
  have hplen : p.length = n := by rw [hp.length_eq, List.length_range]
  unfold dotTo
  have hL : ∀ j ∈ List.range n,
      getEntry (((applyPerm [] p atomss).zip (applyPerm false p statuses)).map
        (fun pr => signedCount pr.1 pr.2 k)) j * getEntry (applyPerm 0 p v) j =
      (fun i => signedCount (atomss.getD i []) (statuses.getD i false) k * getEntry v i)
        (p.getD j 0) := by
    intro j hj
    have hj' : j < p.length := by rw [hplen]; exact List.mem_range.mp hj
    rw [getEntry_row (applyPerm [] p atomss) (applyPerm false p statuses) k j
      (by rw [applyPerm_length]; exact hj') (by rw [applyPerm_length, applyPerm_length]),
      getD_applyPerm [] p atomss j hj', getD_applyPerm false p statuses j hj',
      getEntry_applyPerm p v j hj']
  rw [List.map_congr_left hL]
  rw [show (List.range n) = List.range p.length from by rw [hplen]]
  rw [map_range_getD p 0
    (fun i => signedCount (atomss.getD i []) (statuses.getD i false) k * getEntry v i)]
  rw [(hp.map _).sum_eq]
  have h2 : ∀ i ∈ List.range n,
      getEntry ((atomss.zip statuses).map (fun pr => signedCount pr.1 pr.2 k)) i *
        getEntry v i =
      (fun i => signedCount (atomss.getD i []) (statuses.getD i false) k * getEntry v i) i := by
    intro i hi
    rw [getEntry_row atomss statuses k i (by rw [← hn]; exact List.mem_range.mp hi) hlen]
  rw [hplen, List.map_congr_left h2]

/-- Claim C9 counterexample: under the sign normalization of spec section
4.2 (first known-species coefficient positive), the valid input
`AB2 + B -> A` with two known species balances to `[1, -2, 1]`; swapping
the two known species (with the flags permuted identically, here leaving
them unchanged) balances to `[2, -1, -1]`, which is not the corresponding
permutation `[-2, 1, 1]` of the original output: the normalization picks
opposite representatives of the permuted null-space ray, refuting
equivariance for mixed-sign outputs. -/
theorem C9_counterexample :
    ([1, 0, 2] : List ℕ).Perm (List.range 3) ∧
    stoichiometric_matrix [[("A", 1), ("B", 2)], [("B", 1)], [("A", 1)]]
      [true, true, false] = .ok [[1, 0, -1], [2, 1, 0]] ∧
    balance_stoichiometry [[1, 0, -1], [2, 1, 0]] [true, true, false] = .ok [1, -2, 1] ∧
    applyPerm [] [1, 0, 2] [[("A", 1), ("B", 2)], [("B", 1)], [("A", 1)]] =
      [[("B", 1)], [("A", 1), ("B", 2)], [("A", 1)]] ∧
    applyPerm false [1, 0, 2] [true, true, false] = [true, true, false] ∧
    stoichiometric_matrix [[("B", 1)], [("A", 1), ("B", 2)], [("A", 1)]]
      [true, true, false] = .ok [[1, 2, 0], [0, 1, -1]] ∧
    balance_stoichiometry [[1, 2, 0], [0, 1, -1]] [true, true, false] = .ok [2, -1, -1] ∧
    applyPerm 0 [1, 0, 2] [1, -2, 1] = [-2, 1, 1] ∧
    ([2, -1, -1] : List ℚ) ≠ [-2, 1, 1] := by
  refine ⟨?_, ?_, ?_, ?_, ?_, ?_, ?_, ?_, ?_⟩
  · decide
  · simp [stoichiometric_matrix, collectKeys, signedCount, atomCount, List.find?]
  · norm_num [balance_stoichiometry, nullspaceBasis, rref, gaussPivots, splitPivot,
      backSub, reduceRow, elimRow, basisVector, freeCols, pivotCols, numCols, rationalize,
      signNormalize, firstKnown, intScale, denLcm, intList, intGcd, scaleRow, addRow, getEntry,
      List.find?, List.range_succ]
  · simp [applyPerm]
  · simp [applyPerm]
  · simp [stoichiometric_matrix, collectKeys, signedCount, atomCount, List.find?]
  · norm_num [balance_stoichiometry, nullspaceBasis, rref, gaussPivots, splitPivot,
      backSub, reduceRow, elimRow, basisVector, freeCols, pivotCols, numCols, rationalize,
      signNormalize, firstKnown, intScale, denLcm, intList, intGcd, scaleRow, addRow, getEntry,
      List.find?, List.range_succ]
  · simp [applyPerm]
  · norm_num

/-- Claim C9 (amended): permutation equivariance holds on the strictly
positive outputs: for every valid input whose returned coefficients are all
strictly positive (every genuine chemical reaction), permuting the species
(and the flags identically) and balancing again returns exactly the same
permutation of the original coefficient vector.  For mixed-sign outputs the
first known-species sign rule of section 4.2 can pick the opposite
representative of the permuted ray, as the counterexample shows. -/
theorem C9_permutation_equivariance (p : List ℕ) (atomss : List Species)
    (statuses : List Bool) (M M' : List (List ℚ)) (v v' : List ℚ)
    (hp : p.Perm (List.range atomss.length))
    (hM : stoichiometric_matrix atomss statuses = .ok M)
    (hv : balance_stoichiometry M statuses = .ok v)
    (hM' : stoichiometric_matrix (applyPerm [] p atomss) (applyPerm false p statuses) = .ok M')
    (hv' : balance_stoichiometry M' (applyPerm false p statuses) = .ok v')
    (hpos : ∀ q ∈ v, 0 < q) :
    v' = applyPerm 0 p v := by
  have hplen : p.length = atomss.length := by rw [hp.length_eq, List.length_range]
  have hMne : M ≠ [] := balance_ok_ne_nil M statuses v hv
  have hM'ne : M' ≠ [] := balance_ok_ne_nil M' (applyPerm false p statuses) v' hv'
  have hn : numCols M = atomss.length := stoich_numCols _ _ M hM hMne
  have hn' : numCols M' = atomss.length := by
    rw [stoich_numCols _ _ M' hM' hM'ne, applyPerm_length, hplen]
  obtain ⟨hlenEq, hge2, _, _, hMeq⟩ := stoich_ok_elim atomss statuses M hM
  obtain ⟨_, _, _, _, hM'eq⟩ := stoich_ok_elim _ _ M' hM'
  obtain ⟨hint_v, hgcd_v, hlen_v, hv_ne⟩ := balance_ok_canonical M statuses v hv
  obtain ⟨hint_v', hgcd_v', hlen_v', _⟩ :=
    balance_ok_canonical M' (applyPerm false p statuses) v' hv'
  rw [hn] at hlen_v
  rw [hn'] at hlen_v'
  have hv_null : ∀ r ∈ M, dotTo atomss.length r v = 0 := by
    intro r hr
    have h0 := conservation_zipDot atomss statuses M v hM hv r hr
    rw [zipDot_eq_dotTo atomss.length r v (le_of_eq hlen_v)] at h0
    exact h0
  have hmem_p : ∀ i ∈ p, i < atomss.length := by
    intro i hi
    have := hp.mem_iff.mp hi
    simpa using this
  have hx_len : (applyPerm 0 p v).length = atomss.length := by
    rw [applyPerm_length, hplen]
  have hx_mem : ∀ q ∈ applyPerm 0 p v, q ∈ v := by
    intro q hq
    obtain ⟨i, hi, rfl⟩ := List.mem_map.mp hq
    have hilt : i < v.length := by rw [hlen_v]; exact hmem_p i hi
    rw [List.getD_eq_getElem v 0 hilt]
    exact List.getElem_mem _
  have hx_null : ∀ r' ∈ M', dotTo atomss.length r' (applyPerm 0 p v) = 0 := by
    intro r' hr'
    rw [hM'eq] at hr'
    obtain ⟨k, hk, rfl⟩ := List.mem_map.mp hr'
    rw [perm_row_dot p atomss statuses v k atomss.length rfl hlenEq hp]
    have hk2 : k ∈ collectKeys atomss := by
      rw [mem_collectKeys] at hk ⊢
      obtain ⟨s, hs, c, hc⟩ := hk
      exact ⟨s, (applyPerm_perm [] p atomss hp).mem_iff.mp hs, c, hc⟩
    apply hv_null
    rw [hMeq]
    exact List.mem_map_of_mem _ hk2
  have hx_pos : ∀ q ∈ applyPerm 0 p v, 0 < q := fun q hq => hpos q (hx_mem q hq)
  have hx_null_zip : ∀ r' ∈ M', zipDot r' (applyPerm 0 p v) = 0 := by
    intro r' hr'
    rw [zipDot_eq_dotTo (numCols M') r' _ (le_of_eq (by rw [hx_len, hn'])), hn']
    exact hx_null r' hr'
  have hv'_pos : ∀ q ∈ v', 0 < q :=
    balance_pos_of_pos_null M' (applyPerm false p statuses) v'
      (stoich_rows_numCols _ _ M' hM')
      (stoich_firstKnown_lt _ _ M' hM' hM'ne)
      hv' (applyPerm 0 p v) (by rw [hx_len, hn']) hx_pos hx_null_zip
  have hrows' : ∀ r ∈ M', r.length = numCols M' := stoich_rows_numCols _ _ M' hM'
  have hprops' : RrefProps (numCols M') (rref (numCols M') M') := rref_props _ M' hrows'
  have hx_rref : ∀ cp ∈ rref (numCols M') M', dotTo (numCols M') cp.2 (applyPerm 0 p v) = 0 := by
    apply backSub_complete
    apply gaussPivots_complete
    intro r hr
    rw [hn']
    exact hx_null r hr
  obtain ⟨u', hbasis', hv'_eq⟩ := balance_ok_elim M' (applyPerm false p statuses) v' hv'
  obtain ⟨f', hf'_eq, hu'_eq⟩ := basis_singleton_elim (numCols M') M' u' hbasis'
  have hx_span := rref_null_one_free (numCols M') (rref (numCols M') M') hprops' f' hf'_eq
    (applyPerm 0 p v) hx_rref
  have hx_eq : applyPerm 0 p v =
      scaleRow (getEntry (applyPerm 0 p v) f')
        (basisVector (numCols M') (rref (numCols M') M') f') := by
    apply eq_of_getEntry_eq
    · rw [hx_len, scaleRow_length, basisVector_length, hn']
    · intro j hj
      rw [hx_len] at hj
      rw [getEntry_scaleRow]
      exact hx_span j (by rw [hn']; exact hj)
  obtain ⟨t, ht_ne, hv'_scale⟩ : ∃ t : ℚ, t ≠ 0 ∧ v' = scaleRow t u' := by
    rcases signNormalize_cases (firstKnown (applyPerm false p statuses)) u' with hsn | hsn
    · refine ⟨intScale u', intScale_ne_zero u', ?_⟩
      rw [hv'_eq, hsn]
      rfl
    · refine ⟨intScale (scaleRow (-1) u') * (-1),
        mul_ne_zero (intScale_ne_zero _) (by norm_num), ?_⟩
      rw [hv'_eq, hsn,
        show rationalize (scaleRow (-1) u') =
          scaleRow (intScale (scaleRow (-1) u')) (scaleRow (-1) u') from rfl,
        scaleRow_scaleRow]
  have hx_colinear : applyPerm 0 p v =
      scaleRow (getEntry (applyPerm 0 p v) f' * t⁻¹) v' := by
    rw [hv'_scale, scaleRow_scaleRow, mul_assoc, inv_mul_cancel₀ ht_ne, mul_one, hu'_eq]
    exact hx_eq
  have hx0_pos : 0 < getEntry (applyPerm 0 p v) 0 :=
    hx_pos _ (getEntry_mem _ 0 (by rw [hx_len]; omega))
  have hv'0_pos : 0 < getEntry v' 0 :=
    hv'_pos _ (getEntry_mem _ 0 (by rw [hlen_v']; omega))
  have hx0_eq : getEntry (applyPerm 0 p v) 0 =
      (getEntry (applyPerm 0 p v) f' * t⁻¹) * getEntry v' 0 := by
    conv_lhs => rw [hx_colinear]
    rw [getEntry_scaleRow]
  have hc_pos : 0 < getEntry (applyPerm 0 p v) f' * t⁻¹ := by
    rw [hx0_eq] at hx0_pos
    rcases mul_pos_iff.mp hx0_pos with ⟨h1, _⟩ | ⟨_, h2⟩
    · exact h1
    · linarith
  have hx_int : isIntVec (applyPerm 0 p v) := fun q hq => hint_v q (hx_mem q hq)
  have hx_gcd : vecGcd (applyPerm 0 p v) = 1 := by
    unfold vecGcd
    rw [intGcd_perm _ (v.map Rat.num)
      ((applyPerm_perm 0 p v (by rw [hlen_v]; exact hp)).map Rat.num)]
    exact hgcd_v
  exact unique_rep_pos v' (applyPerm 0 p v) (getEntry (applyPerm 0 p v) f' * t⁻¹)
    hc_pos hx_colinear hint_v' hx_int hgcd_v' hx_gcd

theorem C9_permutation_equivariance_witness :
    ([1, 2, 2] : List ℚ) = applyPerm 0 [2, 1, 0] [2, 2, 1] :=
  C9_permutation_equivariance [2, 1, 0]
    [[("Mg", 1), ("O", 1)], [("Mg", 1)], [("O", 2)]] [true, false, false]
    [[1, -1, 0], [1, 0, -2]] [[-2, 0, 1], [0, -1, 1]] [2, 2, 1] [1, 2, 2]
    (by decide)
    (by simp [stoichiometric_matrix, collectKeys, signedCount, atomCount, List.find?])
    (by norm_num [balance_stoichiometry, nullspaceBasis, rref, gaussPivots, splitPivot,
      backSub, reduceRow, elimRow, basisVector, freeCols, pivotCols, numCols, rationalize,
      signNormalize, firstKnown, intScale, denLcm, intList, intGcd, scaleRow, addRow, getEntry,
      List.find?, List.range_succ])
    (by simp [applyPerm, stoichiometric_matrix, collectKeys, signedCount, atomCount,
      List.find?])
    (by norm_num [applyPerm, balance_stoichiometry, nullspaceBasis, rref, gaussPivots,
      splitPivot, backSub, reduceRow, elimRow, basisVector, freeCols, pivotCols, numCols,
      rationalize, signNormalize, firstKnown, intScale, denLcm, intList, intGcd, scaleRow,
      addRow, getEntry, List.find?, List.range_succ])
    (by intro q hq; simp at hq; rcases hq with rfl | rfl | rfl <;> norm_num)
